import Mathlib

/-!
Verification of the pandas splitter module (`python_splitters.py`) of the
datathon-ml-project repository: a shallow embedding in Lean 4 of the data
model (tabular datasets), the ratio canonicalization, the proportional
partitioner, the activity filter and the stratified splitter, together with
theorems settling the specified properties (row conservation, disjointness,
ratio fidelity, chronological ordering, determinism, error handling and
column preservation).

Rationals are represented by `ℚ`; all rational arithmetic inside the
executable definitions goes through `mkRat`-based helper functions (`qAdd`,
`qSub`, `qMulNat`, `qDiv`, `qRound`, `qSum`) so that every definition
evaluates by kernel reduction; bridge lemmas identify the helpers with the
standard field operations of `ℚ` for the proofs.
-/

/-- Addition on `ℚ` via `mkRat`; equal to `+` (see `qAdd_eq`). -/
def qAdd (a b : ℚ) : ℚ := mkRat (a.num * b.den + b.num * a.den) (a.den * b.den)

/-- Subtraction on `ℚ` via `mkRat`; equal to `-` (see `qSub_eq`). -/
def qSub (a b : ℚ) : ℚ := mkRat (a.num * b.den - b.num * a.den) (a.den * b.den)

/-- Product of a rational and a natural number via `mkRat`. -/
def qMulNat (a : ℚ) (n : ℕ) : ℚ := mkRat (a.num * n) a.den

/-- Division on `ℚ` via `mkRat`; equal to `/` (see `qDiv_eq`). -/
def qDiv (a b : ℚ) : ℚ :=
  if 0 ≤ b.num then mkRat (a.num * b.den) (a.den * b.num.toNat)
  else mkRat (-(a.num * b.den)) (a.den * (-b.num).toNat)

/-- Sum of a list of rationals via `qAdd`. -/
def qSum (l : List ℚ) : ℚ := l.foldr qAdd 0

/-- Rounding to the nearest integer (half up), as `round` on `ℚ`. -/
def qRound (x : ℚ) : ℤ := ⌊qAdd x (mkRat 1 2)⌋

theorem num_eq_mul_den (a : ℚ) : (a.num : ℚ) = a * a.den := by
  have hd : (a.den : ℚ) ≠ 0 := by positivity
  exact (div_eq_iff hd).mp (Rat.num_div_den a)

theorem qAdd_eq (a b : ℚ) : qAdd a b = a + b := by
  rw [qAdd, Rat.mkRat_eq_div]
  have ha : (a.den : ℚ) ≠ 0 := by positivity
  have hb : (b.den : ℚ) ≠ 0 := by positivity
  push_cast
  field_simp
  rw [num_eq_mul_den a, num_eq_mul_den b]
  ring

theorem qSub_eq (a b : ℚ) : qSub a b = a - b := by
  rw [qSub, Rat.mkRat_eq_div]
  have ha : (a.den : ℚ) ≠ 0 := by positivity
  have hb : (b.den : ℚ) ≠ 0 := by positivity
  push_cast
  field_simp
  rw [num_eq_mul_den a, num_eq_mul_den b]
  ring

theorem qMulNat_eq (a : ℚ) (n : ℕ) : qMulNat a n = a * n := by
  rw [qMulNat, Rat.mkRat_eq_div]
  have ha : (a.den : ℚ) ≠ 0 := by positivity
  push_cast
  field_simp
  rw [num_eq_mul_den a]
  ring

theorem qDiv_core (a b : ℚ) (hb0 : b ≠ 0) :
    ((a.num : ℚ) * (b.den : ℚ)) / ((a.den : ℚ) * (b.num : ℚ)) = a / b := by
  have hbn : b.num ≠ 0 := Rat.num_ne_zero.mpr hb0
  have ha : (a.den : ℚ) ≠ 0 := by positivity
  have hbq : ((b.num : ℚ)) ≠ 0 := by exact_mod_cast hbn
  rw [div_eq_div_iff (mul_ne_zero ha hbq) hb0]
  rw [num_eq_mul_den a, num_eq_mul_den b]
  ring

theorem qDiv_eq (a b : ℚ) : qDiv a b = a / b := by
  by_cases hb0 : b = 0
  · subst hb0
    simp [qDiv, Rat.mkRat_eq_div]
  · have hbn : b.num ≠ 0 := Rat.num_ne_zero.mpr hb0
    rcases hbn.lt_or_lt with hb | hb
    · have h1 : (((-b.num).toNat : ℕ) : ℚ) = -(b.num : ℚ) := by
        rw [← Int.cast_natCast, Int.toNat_of_nonneg (by omega : (0:ℤ) ≤ -b.num)]
        push_cast
        ring
      rw [qDiv, if_neg (by omega), Rat.mkRat_eq_div]
      push_cast
      rw [h1, mul_neg, neg_div_neg_eq]
      exact qDiv_core a b hb0
    · have h1 : ((b.num.toNat : ℕ) : ℚ) = (b.num : ℚ) := by
        rw [← Int.cast_natCast, Int.toNat_of_nonneg hb.le]
      rw [qDiv, if_pos hb.le, Rat.mkRat_eq_div]
      push_cast
      rw [h1]
      exact qDiv_core a b hb0

theorem qSum_eq (l : List ℚ) : qSum l = l.sum := by
  induction l with
  | nil => rfl
  | cons x xs ih => rw [qSum, List.foldr_cons, qAdd_eq, List.sum_cons, ← ih]; rfl

theorem qRound_eq (x : ℚ) : qRound x = round x := by
  rw [qRound, qAdd_eq, round_eq]
  norm_num [Rat.mkRat_eq_div]

/-! ## Data model

A dataset (pandas `DataFrame`) is a list of column names together with a
list of rows; a row is a list of integer cells (user ids, item ids, ratings
and timestamps are all modelled as integers).  A cell is addressed by the
index of its column name, and a missing cell reads as `none`. -/

instance exceptDecEq {ε α : Type} [DecidableEq ε] [DecidableEq α] :
    DecidableEq (Except ε α)
  | .error e1, .error e2 =>
      if h : e1 = e2 then isTrue (by rw [h]) else isFalse (by simp [h])
  | .error _, .ok _ => isFalse (by simp)
  | .ok _, .error _ => isFalse (by simp)
  | .ok a1, .ok a2 =>
      if h : a1 = a2 then isTrue (by rw [h]) else isFalse (by simp [h])

/-- A row of a dataset: one integer cell per column. -/
abbrev Row := List ℤ

/-- A tabular dataset: column names plus rows. -/
structure DataFrame where
  cols : List String
  rows : List Row
deriving DecidableEq, Repr

/-- Index of a column name inside the dataset's column list. -/
def colIdx (df : DataFrame) (c : String) : ℕ := df.cols.indexOf c

/-- Total order (as a `Bool` relation) on optional cells, used for sorting
rows and group keys; `none` sorts first. -/
def optLe : Option ℤ → Option ℤ → Bool
  | none, _ => true
  | some _, none => false
  | some x, some y => decide (x ≤ y)

/-- `optLe` as a decidable relation, for the sorting primitives. -/
def optLeP (a b : Option ℤ) : Prop := optLe a b = true

instance optLeP.decRel : DecidableRel optLeP :=
  fun a b => inferInstanceAs (Decidable (optLe a b = true))

instance optLeP.total : IsTotal (Option ℤ) optLeP := by
  constructor
  intro a b
  cases a with
  | none => exact Or.inl rfl
  | some x =>
    cases b with
    | none => exact Or.inr rfl
    | some y =>
      rcases le_total x y with h | h
      · exact Or.inl (by simpa [optLeP, optLe] using h)
      · exact Or.inr (by simpa [optLeP, optLe] using h)

instance optLeP.trans : IsTrans (Option ℤ) optLeP := by
  constructor
  intro a b c hab hbc
  cases a with
  | none => rfl
  | some x =>
    cases b with
    | none => exact absurd hab (by simp [optLeP, optLe])
    | some y =>
      cases c with
      | none => exact absurd hbc (by simp [optLeP, optLe])
      | some z =>
        have h1 : x ≤ y := by simpa [optLeP, optLe] using hab
        have h2 : y ≤ z := by simpa [optLeP, optLe] using hbc
        simpa [optLeP, optLe] using le_trans h1 h2

/-- Row comparison by the cell at column index `i`. -/
def rowLe (i : ℕ) (r1 r2 : Row) : Prop := optLeP r1[i]? r2[i]?

instance rowLe.decRel (i : ℕ) : DecidableRel (rowLe i) :=
  fun r1 r2 => inferInstanceAs (Decidable (optLe _ _ = true))

instance rowLe.total (i : ℕ) : IsTotal Row (rowLe i) :=
  ⟨fun r1 r2 => IsTotal.total (r := optLeP) r1[i]? r2[i]?⟩

instance rowLe.trans (i : ℕ) : IsTrans Row (rowLe i) :=
  ⟨fun r1 r2 r3 h1 h2 => IsTrans.trans (r := optLeP) r1[i]? r2[i]? r3[i]? h1 h2⟩

/-- `data.sort_values(c)`: rows sorted by the value in column `c`. -/
def sort_values (df : DataFrame) (c : String) : DataFrame :=
  let i := colIdx df c
  ⟨df.cols, df.rows.insertionSort (rowLe i)⟩

/-- `data.groupby(c)`: one sub-dataset per distinct key of column `c`,
keys in ascending order, rows of each group in their original order. -/
def groupby (df : DataFrame) (c : String) : List DataFrame :=
  let i := colIdx df c
  let keys := ((df.rows.map (fun r => r[i]?)).dedup).insertionSort optLeP
  keys.map (fun k => ⟨df.cols, df.rows.filter (fun r => r[i]? == k)⟩)

/-- `df[df[c] == v]`: the rows whose cell in column `c` equals `v`. -/
def filterEq (df : DataFrame) (c : String) (v : ℤ) : DataFrame :=
  ⟨df.cols, df.rows.filter (fun r => r[colIdx df c]? == some v)⟩

/-- `df.drop(c, axis=1)`: remove column `c` and the matching cell of every
row. -/
def dropColumn (df : DataFrame) (c : String) : DataFrame :=
  ⟨df.cols.eraseIdx (colIdx df c), df.rows.map (fun r => r.eraseIdx (colIdx df c))⟩

/-- `pd.concat`: append the rows of a non-empty list of datasets sharing
one schema; on an empty list pandas raises (`ValueError`). -/
def pd_concat (l : List DataFrame) : Except String DataFrame :=
  match l with
  | [] => .error "No objects to concatenate"
  | d :: _ => .ok ⟨d.cols, (l.map DataFrame.rows).flatten⟩

/-! ## The `split_utils` helpers

The repository's `split_utils` module (imported by `python_splitters.py`)
is not part of the sources at hand; the three helpers below are modelled
from the specification (RatioSpec §4.1, ProportionalPartitioner §4.2,
ActivityFilter §4.3). -/

/-- A ratio argument: a single fraction or a list of fractions. -/
inductive RatioInput where
  | single (r : ℚ)
  | list (l : List ℚ)
deriving DecidableEq, Repr

/-- Result of ratio processing: a validated single fraction (two-way) or a
normalized ratio list (multi-way). -/
inductive ProcessedRatio where
  | single (r : ℚ)
  | multi (l : List ℚ)
deriving DecidableEq, Repr

/-- Modelled from the spec: `split_utils.process_split_ratio` (RatioSpec,
§4.1), absent from the sources at hand.  A single fraction must lie in
`(0, 1)` and is reported as two-way (the callers build `[r, 1-r]`
themselves); a list must have at least two elements, all positive, and is
divided by its sum unless the sum is already exactly 1; it is reported as
multi-way. -/
def process_split_ratio : RatioInput → Except String ProcessedRatio
  | .single r =>
      if 0 < r ∧ r < 1 then .ok (.single r)
      else .error "Split ratio has to be between 0 and 1"
  | .list l =>
      if l.any (fun x => decide (x ≤ 0)) then
        .error "All split ratios in the ratio list should be positive."
      else if l.length < 2 then
        .error "not a valid ratio list"
      else if qSum l = 1 then .ok (.multi l)
      else .ok (.multi (l.map (fun x => qDiv x (qSum l))))

/-- The canonical ratio list the stratifier works with: a single fraction
`r` becomes `[r, 1-r]`, a multi-way list is used as is
(`python_splitters.py`, the line `ratio = ratio if multi_split else
[ratio, 1 - ratio]`). -/
def canonRatio : ProcessedRatio → List ℚ
  | .single r => [r, qSub 1 r]
  | .multi l => l

/-- Modelled from the spec: `split_utils.min_rating_filter_pandas`
(ActivityFilter, §4.3), absent from the sources at hand.  Keeps exactly
the rows whose group (by the user column when filtering by user, else the
item column) has at least `min_rating` rows. -/
def min_rating_filter_pandas (df : DataFrame) (min_rating : ℤ)
    (filter_by : String) (col_user col_item : String) : DataFrame :=
  let c := if filter_by = "user" then col_user else col_item
  let i := colIdx df c
  ⟨df.cols, df.rows.filter (fun r =>
    decide (min_rating ≤ ((df.rows.filter (fun r2 => r2[i]? == r[i]?)).length : ℤ)))⟩

/-- Running sums of a ratio list, starting from `acc`. -/
def cumsumFrom (acc : ℚ) : List ℚ → List ℚ
  | [] => []
  | x :: xs => qAdd acc x :: cumsumFrom (qAdd acc x) xs

/-- Clamp a list of boundary candidates so it is non-decreasing, starting
from `prev`. -/
def monoClamp (prev : ℕ) : List ℕ → List ℕ
  | [] => []
  | x :: xs => max prev x :: monoClamp (max prev x) xs

/-- Replace the last element of the boundary list by `n`. -/
def forceLast : List ℕ → ℕ → List ℕ
  | [], _ => []
  | [_], n => [n]
  | x :: y :: xs, n => x :: forceLast (y :: xs) n

/-- Modelled from the spec (§4.2): cumulative row-count boundaries
`b_i = round(c_i * n)` over the cumulative proportions `c_i`, clamped
non-decreasing with the last boundary forced to `n` exactly. -/
def boundaries (ratios : List ℚ) (n : ℕ) : List ℕ :=
  forceLast (monoClamp 0 ((cumsumFrom 0 ratios).map (fun c => (qRound (qMulNat c n)).toNat))) n

/-- The consecutive segments of `rows` cut at the boundaries `bs`,
starting at position `prev`: segment `i` is `rows[b_(i-1) .. b_i)`. -/
def slicesFrom (rows : List Row) : ℕ → List ℕ → List (List Row)
  | _, [] => []
  | prev, b :: bs => ((rows.take b).drop prev) :: slicesFrom rows b bs

/-- The row order the partitioner works on: a seed-determined
pseudo-random permutation of the rows when `shuffle` is set (modelled as a
seed-indexed rotation; only its being a seed-determined permutation is
relied upon), the existing row order otherwise. -/
def shuffledRows (df : DataFrame) (shuffle : Bool) (seed : ℕ) : List Row :=
  if shuffle then df.rows.rotate seed else df.rows

/-- Modelled from the spec: `split_utils.split_pandas_data_with_ratios`
(ProportionalPartitioner, §4.2), absent from the sources at hand.  The
(possibly shuffled) row sequence is cut at the cumulative boundaries, and
each of the `k` returned datasets carries an extra `split_index` column
holding its index. -/
def split_pandas_data_with_ratios (df : DataFrame) (ratios : List ℚ)
    (shuffle : Bool) (seed : ℕ) : List DataFrame :=
  let rows := shuffledRows df shuffle seed
  let bs := boundaries ratios rows.length
  (slicesFrom rows 0 bs).enum.map (fun p =>
    ⟨df.cols ++ ["split_index"], p.2.map (fun r => r ++ [Int.ofNat p.1])⟩)

/-! ## The splitters (`python_splitters.py`) -/

/-- `python_random_split` from `python_splitters.py`.  The external
sklearn train/test primitive is out of scope (spec §1) and is taken as a
parameter `sk_split`, invoked with the dataset, the train fraction and the
seed exactly when the ratio is two-way. -/
def python_random_split (sk_split : DataFrame → ℚ → ℕ → List DataFrame)
    (data : DataFrame) (ratio : RatioInput) (seed : ℕ) :
    Except String (List DataFrame) :=
  match process_split_ratio ratio with
  | .error e => .error e
  | .ok (.multi l) =>
      .ok ((split_pandas_data_with_ratios data l true seed).map
        (fun x => dropColumn x "split_index"))
  | .ok (.single r) => .ok (sk_split data r seed)

/-- The dataset after the optional min-rating filter step of
`_do_stratification` (the source's `data`, reassigned exactly when
`min_rating > 1`). -/
def filteredData (data : DataFrame) (min_rating : ℤ)
    (filter_by col_user col_item : String) : DataFrame :=
  if 1 < min_rating then
    min_rating_filter_pandas data min_rating filter_by col_user col_item
  else data

/-- The source's `df_grouped`: the filtered dataset, sorted by timestamp
when chronological, grouped by `split_by_column` (the user column when
filtering by user, else the item column). -/
def groupedData (data : DataFrame) (min_rating : ℤ) (filter_by : String)
    (is_random : Bool) (col_user col_item col_timestamp : String) :
    List DataFrame :=
  let split_by_column := if filter_by = "user" then col_user else col_item
  let data2 := filteredData data min_rating filter_by col_user col_item
  if is_random = false then groupby (sort_values data2 col_timestamp) split_by_column
  else groupby data2 split_by_column

/-- `_do_stratification` from `python_splitters.py`, translated line by
line: validation checks, ratio processing, optional min-rating filter and
(chronological) sort plus grouping (the locals `data` and `df_grouped`,
factored into `filteredData` and `groupedData`), per-group proportional
split, group-level concatenation, global concatenation, and reassembly by
`split_index`. -/
def _do_stratification (data : DataFrame) (ratio : RatioInput)
    (min_rating : ℤ) (filter_by : String) (is_random : Bool) (seed : ℕ)
    (col_user col_item col_timestamp : String) :
    Except String (List DataFrame) :=
  if ¬(filter_by = "user" ∨ filter_by = "item") then
    .error "filter_by should be either 'user' or 'item'."
  else if min_rating < 1 then
    .error "min_rating should be integer and larger than or equal to 1."
  else if col_user ∉ data.cols then
    .error "Schema of data not valid. Missing User Col"
  else if col_item ∉ data.cols then
    .error "Schema of data not valid. Missing Item Col"
  else if is_random = false ∧ col_timestamp ∉ data.cols then
    .error "Schema of data not valid. Missing Timestamp Col"
  else
    match process_split_ratio ratio with
    | .error e => .error e
    | .ok pr =>
      let rs := canonRatio pr
      match (groupedData data min_rating filter_by is_random
          col_user col_item col_timestamp).mapM
          (fun g => pd_concat (split_pandas_data_with_ratios g rs is_random seed)) with
      | .error e => .error e
      | .ok splits =>
        match pd_concat splits with
        | .error e => .error e
        | .ok splits_all =>
          .ok ((List.range rs.length).map (fun x =>
            dropColumn (filterEq splits_all "split_index" (Int.ofNat x)) "split_index"))

/-- `python_chrono_split` from `python_splitters.py`: stratified
chronological splitting via `_do_stratification` with `is_random=False`
(and the default seed 42, which the chronological path never uses). -/
def python_chrono_split (data : DataFrame) (ratio : RatioInput)
    (min_rating : ℤ) (filter_by : String)
    (col_user col_item col_timestamp : String) :
    Except String (List DataFrame) :=
  _do_stratification data ratio min_rating filter_by false 42
    col_user col_item col_timestamp

/-! ## Generic list lemmas -/

theorem round_mono_q {x y : ℚ} (h : x ≤ y) : round x ≤ round y := by
  rw [round_eq, round_eq]
  exact Int.floor_le_floor (by linarith)

theorem take_drop_append {α : Type} (l : List α) {p b c : ℕ} (hpb : p ≤ b)
    (hbc : b ≤ c) :
    (l.take b).drop p ++ (l.take c).drop b = (l.take c).drop p := by
  by_cases hp : p ≤ (l.take b).length
  · have h1 : (l.take c).take b = l.take b := by
      rw [List.take_take, Nat.min_eq_left hbc]
    have h2 : (l.take c).drop p
        = ((l.take c).take b).drop p ++ ((l.take c).drop b).drop (p - ((l.take c).take b).length) := by
      rw [← List.drop_append_eq_append_drop, List.take_append_drop]
    rw [h2, h1]
    have h3 : p - (l.take b).length = 0 := by omega
    rw [h3, List.drop_zero]
  · have hlb : (l.take b).length = min b l.length := List.length_take b l
    have hlen : l.length < p := by omega
    have htb : l.take b = l := List.take_of_length_le (by omega)
    have htc : l.take c = l := List.take_of_length_le (by omega)
    rw [htb, htc, List.drop_eq_nil_of_le (by omega), List.drop_eq_nil_of_le (by omega)]
    rfl

theorem chain_le_getLastD {prev : ℕ} {bs : List ℕ}
    (h : List.Chain (· ≤ ·) prev bs) : prev ≤ bs.getLastD prev := by
  induction bs generalizing prev with
  | nil => exact le_refl prev
  | cons b bs ih =>
    rcases List.chain_cons.mp h with ⟨h1, h2⟩
    rw [List.getLastD_cons]
    exact le_trans h1 (ih h2)

theorem slicesFrom_flatten (rows : List Row) :
    ∀ (prev : ℕ) (bs : List ℕ), List.Chain (· ≤ ·) prev bs →
    (slicesFrom rows prev bs).flatten = (rows.take (bs.getLastD prev)).drop prev := by
  intro prev bs
  induction bs generalizing prev with
  | nil =>
    intro _
    rw [slicesFrom, List.flatten_nil]
    rw [eq_comm]
    apply List.drop_eq_nil_of_le
    calc (rows.take prev).length = min prev rows.length := List.length_take prev rows
    _ ≤ prev := Nat.min_le_left _ _
  | cons b bs ih =>
    intro h
    rcases List.chain_cons.mp h with ⟨h1, h2⟩
    rw [slicesFrom, List.flatten_cons, ih b h2, List.getLastD_cons]
    exact take_drop_append rows h1 (chain_le_getLastD h2)

theorem slicesFrom_length (rows : List Row) :
    ∀ (prev : ℕ) (bs : List ℕ), (slicesFrom rows prev bs).length = bs.length := by
  intro prev bs
  induction bs generalizing prev with
  | nil => rfl
  | cons b bs ih => rw [slicesFrom, List.length_cons, ih b, List.length_cons]

theorem slicesFrom_mem_mem (rows : List Row) :
    ∀ (prev : ℕ) (bs : List ℕ), ∀ s ∈ slicesFrom rows prev bs, ∀ r ∈ s, r ∈ rows := by
  intro prev bs
  induction bs generalizing prev with
  | nil => intro s hs; simp [slicesFrom] at hs
  | cons b bs ih =>
    intro s hs r hr
    rw [slicesFrom, List.mem_cons] at hs
    rcases hs with hs | hs
    · subst hs
      exact List.mem_of_mem_take (List.mem_of_mem_drop hr)
    · exact ih b s hs r hr

theorem partition_perm {α β : Type} [BEq β] [LawfulBEq β] (f : α → β) :
    ∀ (keys : List β) (L : List α), keys.Nodup → (∀ a ∈ L, f a ∈ keys) →
    ((keys.map (fun v => L.filter (fun a => f a == v))).flatten).Perm L := by
  intro keys
  induction keys with
  | nil =>
    intro L _ hcov
    have hL : L = [] := by
      cases L with
      | nil => rfl
      | cons a t => exact absurd (hcov a (by simp)) (by simp)
    subst hL
    simp
  | cons v ks ih =>
    intro L hnd hcov
    have hvks : v ∉ ks := (List.nodup_cons.mp hnd).1
    have hnd' : ks.Nodup := (List.nodup_cons.mp hnd).2
    rw [List.map_cons, List.flatten_cons]
    have hmapeq : ks.map (fun k => L.filter (fun a => f a == k))
        = ks.map (fun k => (L.filter (fun a => !(f a == v))).filter (fun a => f a == k)) := by
      apply List.map_congr_left
      intro k hk
      rw [List.filter_filter]
      apply List.filter_congr
      intro a _
      by_cases hfa : f a = k
      · have hkv : ¬(k = v) := fun hc => hvks (hc ▸ hk)
        have hav : ¬(f a = v) := fun hc => hkv (hfa ▸ hc)
        simp [hfa, hkv, hav]
      · simp [hfa]
    rw [hmapeq]
    have ihcov : ∀ a ∈ L.filter (fun a => !(f a == v)), f a ∈ ks := by
      intro a ha
      have h1 := hcov a (List.mem_of_mem_filter ha)
      have h2 := List.of_mem_filter ha
      simp only [Bool.not_eq_true', beq_eq_false_iff_ne, ne_eq] at h2
      rcases List.mem_cons.mp h1 with hc | hc
      · exact absurd hc h2
      · exact hc
    have ih' := ih (L.filter (fun a => !(f a == v))) hnd' ihcov
    exact List.Perm.trans (List.Perm.append_left _ ih') (List.filter_append_perm _ L)

/-! ## Ratio and boundary lemmas -/

theorem cumsumFrom_length (rs : List ℚ) : ∀ acc, (cumsumFrom acc rs).length = rs.length := by
  induction rs with
  | nil => intro acc; rfl
  | cons x xs ih => intro acc; rw [cumsumFrom, List.length_cons, ih, List.length_cons]

theorem monoClamp_length (l : List ℕ) : ∀ prev, (monoClamp prev l).length = l.length := by
  induction l with
  | nil => intro prev; rfl
  | cons x xs ih => intro prev; rw [monoClamp, List.length_cons, ih, List.length_cons]

theorem forceLast_length (l : List ℕ) (n : ℕ) : (forceLast l n).length = l.length := by
  induction l with
  | nil => rfl
  | cons x xs ih =>
    cases xs with
    | nil => rfl
    | cons y ys =>
      rw [forceLast, List.length_cons, ih]
      rfl

theorem boundaries_length (rs : List ℚ) (n : ℕ) : (boundaries rs n).length = rs.length := by
  rw [boundaries, forceLast_length, monoClamp_length, List.length_map, cumsumFrom_length]

theorem monoClamp_chain (l : List ℕ) : ∀ prev, List.Chain (· ≤ ·) prev (monoClamp prev l) := by
  induction l with
  | nil => intro prev; exact List.Chain.nil
  | cons x xs ih =>
    intro prev
    rw [monoClamp]
    exact List.Chain.cons (Nat.le_max_left prev x) (ih (max prev x))

theorem monoClamp_le_bound (l : List ℕ) :
    ∀ prev n, prev ≤ n → (∀ x ∈ l, x ≤ n) → ∀ y ∈ monoClamp prev l, y ≤ n := by
  induction l with
  | nil => intro prev n _ _ y hy; simp [monoClamp] at hy
  | cons x xs ih =>
    intro prev n hpn hl y hy
    rw [monoClamp, List.mem_cons] at hy
    rcases hy with hy | hy
    · subst hy
      exact max_le hpn (hl x (by simp))
    · exact ih (max prev x) n (max_le hpn (hl x (by simp))) (fun z hz => hl z (by simp [hz])) y hy

theorem forceLast_chain (l : List ℕ) :
    ∀ prev n, List.Chain (· ≤ ·) prev l → prev ≤ n → (∀ x ∈ l, x ≤ n) →
    List.Chain (· ≤ ·) prev (forceLast l n) := by
  induction l with
  | nil => intro prev n _ _ _; exact List.Chain.nil
  | cons x xs ih =>
    intro prev n hc hpn hb
    rcases List.chain_cons.mp hc with ⟨h1, h2⟩
    cases xs with
    | nil => exact List.Chain.cons hpn List.Chain.nil
    | cons y ys =>
      rw [forceLast]
      exact List.Chain.cons h1
        (ih x n h2 (hb x (by simp)) (fun z hz => hb z (by simp [hz])))

theorem forceLast_getLastD (l : List ℕ) (n d : ℕ) (h : l ≠ []) :
    (forceLast l n).getLastD d = n := by
  induction l generalizing d with
  | nil => exact absurd rfl h
  | cons x xs ih =>
    cases xs with
    | nil => rfl
    | cons y ys =>
      rw [forceLast, List.getLastD_cons]
      exact ih x (by simp)

theorem cumsumFrom_le_sum (rs : List ℚ) :
    ∀ acc, (∀ x ∈ rs, 0 < x) → ∀ c ∈ cumsumFrom acc rs, c ≤ acc + rs.sum := by
  induction rs with
  | nil => intro acc _ c hc; simp [cumsumFrom] at hc
  | cons x xs ih =>
    intro acc hpos c hc
    have hxs : (0:ℚ) ≤ xs.sum :=
      List.sum_nonneg (fun y hy => le_of_lt (hpos y (by simp [hy])))
    rw [cumsumFrom, List.mem_cons] at hc
    rcases hc with hc | hc
    · subst hc
      rw [qAdd_eq, List.sum_cons]
      linarith
    · have := ih (qAdd acc x) (fun y hy => hpos y (by simp [hy])) c hc
      rw [qAdd_eq] at this
      rw [List.sum_cons]
      linarith

theorem sum_map_div (l : List ℚ) (s : ℚ) : (l.map (fun x => x / s)).sum = l.sum / s := by
  induction l with
  | nil => simp
  | cons x xs ih => rw [List.map_cons, List.sum_cons, List.sum_cons, ih, add_div]

/-- Every canonical ratio list arising from a successful
`process_split_ratio` has positive entries, sums to exactly 1 and has at
least two entries. -/
theorem canonRatio_ok (ri : RatioInput) (pr : ProcessedRatio)
    (h : process_split_ratio ri = .ok pr) :
    (∀ x ∈ canonRatio pr, 0 < x) ∧ (canonRatio pr).sum = 1 ∧ 2 ≤ (canonRatio pr).length := by
  cases ri with
  | single r =>
    rw [process_split_ratio] at h
    by_cases hc : 0 < r ∧ r < 1
    · rw [if_pos hc] at h
      cases h
      refine ⟨?_, ?_, ?_⟩
      · intro x hx
        rcases List.mem_cons.mp hx with hx | hx
        · exact hx ▸ hc.1
        · have : x = qSub 1 r := by simpa using hx
          rw [this, qSub_eq]
          linarith [hc.2]
      · simp [canonRatio, qSub_eq]
      · simp [canonRatio]
    · rw [if_neg hc] at h
      exact absurd h (by simp)
  | list l =>
    rw [process_split_ratio] at h
    by_cases hany : l.any (fun x => decide (x ≤ 0))
    · rw [if_pos hany] at h
      exact absurd h (by simp)
    · rw [if_neg hany] at h
      have hpos : ∀ x ∈ l, 0 < x := by
        intro x hx
        by_contra hc
        push_neg at hc
        exact hany (List.any_eq_true.mpr ⟨x, hx, by simpa using hc⟩)
      by_cases hlen : l.length < 2
      · rw [if_pos hlen] at h
        exact absurd h (by simp)
      · rw [if_neg hlen] at h
        have hnil : l ≠ [] := by
          intro hc
          rw [hc] at hlen
          simp at hlen
        have hspos : 0 < l.sum := List.sum_pos l hpos hnil
        by_cases hsum : qSum l = 1
        · rw [if_pos hsum] at h
          cases h
          rw [qSum_eq] at hsum
          exact ⟨by simpa [canonRatio] using hpos, by simpa [canonRatio] using hsum,
            by simpa [canonRatio] using Nat.le_of_not_lt hlen⟩
        · rw [if_neg hsum] at h
          cases h
          have hsne : l.sum ≠ 0 := ne_of_gt hspos
          refine ⟨?_, ?_, ?_⟩
          · intro x hx
            simp only [canonRatio, List.mem_map] at hx
            rcases hx with ⟨y, hy, hxy⟩
            rw [← hxy, qDiv_eq, qSum_eq]
            exact div_pos (hpos y hy) hspos
          · have : canonRatio (ProcessedRatio.multi (l.map (fun x => qDiv x (qSum l))))
                = l.map (fun x => x / l.sum) := by
              simp only [canonRatio]
              apply List.map_congr_left
              intro x _
              rw [qDiv_eq, qSum_eq]
            rw [this, sum_map_div, div_self hsne]
          · simpa [canonRatio] using Nat.le_of_not_lt hlen

/-- Under the canonical ratio hypotheses the boundary list is a
non-decreasing chain from 0 of the right length ending exactly at `n`. -/
theorem boundaries_spec (rs : List ℚ) (n : ℕ) (hpos : ∀ x ∈ rs, 0 < x)
    (hsum : rs.sum = 1) (hne : rs ≠ []) :
    List.Chain (· ≤ ·) 0 (boundaries rs n) ∧ (boundaries rs n).getLastD 0 = n := by
  have hraw : ∀ y ∈ (cumsumFrom 0 rs).map (fun c => (qRound (qMulNat c n)).toNat), y ≤ n := by
    intro y hy
    rcases List.mem_map.mp hy with ⟨c, hc, hcy⟩
    have hc1 : c ≤ 1 := by
      have := cumsumFrom_le_sum rs 0 hpos c hc
      linarith [hsum ▸ this]
    have hcn : qMulNat c n ≤ ((n:ℚ)) := by
      rw [qMulNat_eq]
      nlinarith [Nat.cast_nonneg (α := ℚ) n]
    have hround : qRound (qMulNat c n) ≤ n := by
      rw [qRound_eq]
      calc round (qMulNat c n) ≤ round ((n:ℚ)) := round_mono_q hcn
      _ = n := round_natCast n
    rw [← hcy]
    exact Int.toNat_le.mpr hround
  have hmono := monoClamp_chain ((cumsumFrom 0 rs).map (fun c => (qRound (qMulNat c n)).toNat)) 0
  have hbnd := monoClamp_le_bound ((cumsumFrom 0 rs).map (fun c => (qRound (qMulNat c n)).toNat))
    0 n (Nat.zero_le n) hraw
  constructor
  · exact forceLast_chain _ 0 n hmono (Nat.zero_le n) hbnd
  · apply forceLast_getLastD
    intro hc
    have := monoClamp_length ((cumsumFrom 0 rs).map (fun c => (qRound (qMulNat c n)).toNat)) 0
    rw [hc] at this
    simp only [List.length_nil] at this
    rw [List.length_map, cumsumFrom_length] at this
    exact hne (List.length_eq_zero.mp this.symm)

/-! ## Decomposition of the stratifier -/

theorem mapM_ok_forall₂ {α β : Type} {f : α → Except String β} :
    ∀ {l : List α} {l' : List β}, l.mapM f = .ok l' →
    List.Forall₂ (fun a b => f a = .ok b) l l' := by
  intro l
  induction l with
  | nil =>
    intro l' h
    rw [← List.mapM'_eq_mapM, List.mapM'] at h
    cases h
    exact List.Forall₂.nil
  | cons a as ih =>
    intro l' h
    rw [← List.mapM'_eq_mapM, List.mapM'] at h
    cases hfa : f a with
    | error e => rw [hfa] at h; exact Except.noConfusion h
    | ok b =>
      rw [hfa] at h
      cases hrest : List.mapM' f as with
      | error e =>
        rw [hrest] at h
        exact Except.noConfusion h
      | ok bs =>
        rw [hrest] at h
        have hl' : l' = b :: bs := (Except.ok.inj h).symm
        subst hl'
        rw [List.mapM'_eq_mapM] at hrest
        exact List.Forall₂.cons hfa (ih hrest)

theorem pd_concat_ok {l : List DataFrame} {sa : DataFrame}
    (h : pd_concat l = .ok sa) :
    ∃ d t, l = d :: t ∧ sa = ⟨d.cols, (l.map DataFrame.rows).flatten⟩ := by
  cases l with
  | nil => exact absurd h (by simp [pd_concat])
  | cons d t =>
    refine ⟨d, t, rfl, ?_⟩
    rw [pd_concat] at h
    cases h
    rfl

theorem indexOf_append_self {c : String} {l : List String} (h : c ∉ l) :
    (l ++ [c]).indexOf c = l.length := by
  induction l with
  | nil => simp [List.indexOf_cons]
  | cons a t ih =>
    have hca : ¬(a == c) = true := by
      simp only [beq_iff_eq]
      intro hc
      exact h (by simp [hc])
    rw [List.cons_append, List.indexOf_cons, List.length_cons]
    simp only [hca, cond_false]
    rw [ih (fun hc => h (by simp [hc]))]

theorem sort_values_cols (df : DataFrame) (c : String) :
    (sort_values df c).cols = df.cols := rfl

theorem sort_values_rows_perm (df : DataFrame) (c : String) :
    ((sort_values df c).rows).Perm df.rows := List.perm_insertionSort _ _

theorem min_rating_filter_cols (df : DataFrame) (m : ℤ) (fb cu ci : String) :
    (min_rating_filter_pandas df m fb cu ci).cols = df.cols := rfl

theorem filteredData_cols (df : DataFrame) (m : ℤ) (fb cu ci : String) :
    (filteredData df m fb cu ci).cols = df.cols := by
  rw [filteredData]
  split <;> rfl

theorem filteredData_rows_sub (df : DataFrame) (m : ℤ) (fb cu ci : String) :
    ∀ r ∈ (filteredData df m fb cu ci).rows, r ∈ df.rows := by
  intro r hr
  rw [filteredData] at hr
  split at hr
  · exact List.mem_of_mem_filter hr
  · exact hr

theorem groupby_cols (df : DataFrame) (c : String) :
    ∀ g ∈ groupby df c, g.cols = df.cols := by
  intro g hg
  rcases List.mem_map.mp hg with ⟨k, _, hk⟩
  rw [← hk]

theorem groupby_keys_nodup (df : DataFrame) (c : String) :
    (((df.rows.map (fun r => r[colIdx df c]?)).dedup).insertionSort optLeP).Nodup :=
  (List.nodup_dedup _).perm (List.perm_insertionSort _ _).symm

theorem groupby_map_rows (df : DataFrame) (c : String) :
    (groupby df c).map DataFrame.rows
      = (((df.rows.map (fun r => r[colIdx df c]?)).dedup).insertionSort optLeP).map
          (fun k => df.rows.filter (fun r => r[colIdx df c]? == k)) := by
  rw [groupby, List.map_map]
  rfl

theorem groupby_flatten_perm (df : DataFrame) (c : String) :
    (((groupby df c).map DataFrame.rows).flatten).Perm df.rows := by
  rw [groupby_map_rows]
  apply partition_perm (fun r => r[colIdx df c]?)
  · exact groupby_keys_nodup df c
  · intro r hr
    rw [(List.perm_insertionSort optLeP _).mem_iff, List.mem_dedup]
    exact List.mem_map_of_mem _ hr

theorem groupby_blocks (df : DataFrame) (c : String) :
    ∀ g ∈ groupby df c, ∃ k, g = ⟨df.cols, df.rows.filter (fun r => r[colIdx df c]? == k)⟩ := by
  intro g hg
  rcases List.mem_map.mp hg with ⟨k, _, hk⟩
  exact ⟨k, hk.symm⟩

/-- The dataset whose grouping `_do_stratification` iterates over (the
filtered dataset, sorted by timestamp in the chronological mode). -/
def baseData (data : DataFrame) (min_rating : ℤ) (filter_by : String)
    (is_random : Bool) (col_user col_item col_timestamp : String) : DataFrame :=
  if is_random = false then
    sort_values (filteredData data min_rating filter_by col_user col_item) col_timestamp
  else filteredData data min_rating filter_by col_user col_item

theorem groupedData_eq (data : DataFrame) (m : ℤ) (fb : String) (ir : Bool)
    (cu ci cts : String) :
    groupedData data m fb ir cu ci cts
      = groupby (baseData data m fb ir cu ci cts) (if fb = "user" then cu else ci) := by
  rw [groupedData, baseData]
  cases ir <;> simp

theorem baseData_cols (data : DataFrame) (m : ℤ) (fb : String) (ir : Bool)
    (cu ci cts : String) :
    (baseData data m fb ir cu ci cts).cols = data.cols := by
  rw [baseData]
  split
  · rw [sort_values_cols, filteredData_cols]
  · rw [filteredData_cols]

theorem baseData_rows_perm (data : DataFrame) (m : ℤ) (fb : String) (ir : Bool)
    (cu ci cts : String) :
    ((baseData data m fb ir cu ci cts).rows).Perm
      (filteredData data m fb cu ci).rows := by
  rw [baseData]
  split
  · exact sort_values_rows_perm _ _
  · exact List.Perm.refl _

theorem baseData_rows_sub (data : DataFrame) (m : ℤ) (fb : String) (ir : Bool)
    (cu ci cts : String) :
    ∀ r ∈ (baseData data m fb ir cu ci cts).rows, r ∈ data.rows := by
  intro r hr
  exact filteredData_rows_sub data m fb cu ci r
    ((baseData_rows_perm data m fb ir cu ci cts).mem_iff.mp hr)

theorem groupedData_cols (data : DataFrame) (m : ℤ) (fb : String) (ir : Bool)
    (cu ci cts : String) :
    ∀ g ∈ groupedData data m fb ir cu ci cts, g.cols = data.cols := by
  intro g hg
  rw [groupedData_eq] at hg
  rw [groupby_cols _ _ g hg, baseData_cols]

theorem groupedData_rows_sub (data : DataFrame) (m : ℤ) (fb : String) (ir : Bool)
    (cu ci cts : String) :
    ∀ g ∈ groupedData data m fb ir cu ci cts, ∀ r ∈ g.rows, r ∈ data.rows := by
  intro g hg r hr
  rw [groupedData_eq] at hg
  rcases groupby_blocks _ _ g hg with ⟨k, hk⟩
  subst hk
  exact baseData_rows_sub data m fb ir cu ci cts r (List.mem_of_mem_filter hr)

/-- Inversion of a successful run of `_do_stratification`: the validation
checks passed, ratio processing succeeded, every group-level and the
global concatenation succeeded and the outputs are the reassembled
`split_index` classes. -/
theorem do_strat_ok_inv {data : DataFrame} {ratio : RatioInput} {m : ℤ}
    {fb : String} {ir : Bool} {seed : ℕ} {cu ci cts : String}
    {outs : List DataFrame}
    (h : _do_stratification data ratio m fb ir seed cu ci cts = .ok outs) :
    (fb = "user" ∨ fb = "item") ∧ 1 ≤ m ∧ cu ∈ data.cols ∧ ci ∈ data.cols ∧
    (ir = false → cts ∈ data.cols) ∧
    ∃ pr splits sa,
      process_split_ratio ratio = .ok pr ∧
      (groupedData data m fb ir cu ci cts).mapM
        (fun g => pd_concat (split_pandas_data_with_ratios g (canonRatio pr) ir seed)) = .ok splits ∧
      pd_concat splits = .ok sa ∧
      outs = (List.range (canonRatio pr).length).map (fun x =>
        dropColumn (filterEq sa "split_index" (Int.ofNat x)) "split_index") := by
  rw [_do_stratification] at h
  by_cases h1 : ¬(fb = "user" ∨ fb = "item")
  · rw [if_pos h1] at h; exact absurd h (by simp)
  rw [if_neg h1] at h
  by_cases h2 : m < 1
  · rw [if_pos h2] at h; exact absurd h (by simp)
  rw [if_neg h2] at h
  by_cases h3 : cu ∉ data.cols
  · rw [if_pos h3] at h; exact absurd h (by simp)
  rw [if_neg h3] at h
  by_cases h4 : ci ∉ data.cols
  · rw [if_pos h4] at h; exact absurd h (by simp)
  rw [if_neg h4] at h
  by_cases h5 : ir = false ∧ cts ∉ data.cols
  · rw [if_pos h5] at h; exact absurd h (by simp)
  rw [if_neg h5] at h
  refine ⟨not_not.mp h1, by omega, not_not.mp h3, not_not.mp h4, ?_, ?_⟩
  · intro hir
    by_contra hc
    exact h5 ⟨hir, hc⟩
  split at h
  · exact absurd h (by simp)
  · rename_i pr hpr
    dsimp only at h
    split at h
    · exact absurd h (by simp)
    · rename_i splits hsp
      split at h
      · exact absurd h (by simp)
      · rename_i sa hsa
        cases h
        exact ⟨pr, splits, sa, hpr, hsp, hsa, rfl⟩

/-! ## Per-group structure of the partitioner output -/

/-- All rows a group contributes to the concatenated tagged dataset: the
flattened rows of its `k` per-group split datasets. -/
def taggedGroupRows (g : DataFrame) (rs : List ℚ) (sh : Bool) (seed : ℕ) : List Row :=
  ((split_pandas_data_with_ratios g rs sh seed).map DataFrame.rows).flatten

/-- The (untagged) rows a group contributes to output set `x`: the `x`-th
segment of its (possibly shuffled) row sequence. -/
def groupSlice (g : DataFrame) (rs : List ℚ) (sh : Bool) (seed x : ℕ) : List Row :=
  (slicesFrom (shuffledRows g sh seed) 0
    (boundaries rs (shuffledRows g sh seed).length)).getD x []

theorem shuffledRows_perm (g : DataFrame) (sh : Bool) (seed : ℕ) :
    (shuffledRows g sh seed).Perm g.rows := by
  rw [shuffledRows]
  split
  · exact List.rotate_perm _ _
  · exact List.Perm.refl _

theorem split_pandas_map_rows (g : DataFrame) (rs : List ℚ) (sh : Bool) (seed : ℕ) :
    (split_pandas_data_with_ratios g rs sh seed).map DataFrame.rows
      = ((slicesFrom (shuffledRows g sh seed) 0
          (boundaries rs (shuffledRows g sh seed).length)).enum.map
          (fun p => p.2.map (fun r => r ++ [Int.ofNat p.1]))) := by
  rw [split_pandas_data_with_ratios, List.map_map]
  rfl

theorem split_pandas_length (g : DataFrame) (rs : List ℚ) (sh : Bool) (seed : ℕ) :
    (split_pandas_data_with_ratios g rs sh seed).length = rs.length := by
  rw [split_pandas_data_with_ratios]
  rw [List.length_map, List.enum_length, slicesFrom_length, boundaries_length]

theorem split_pandas_cols (g : DataFrame) (rs : List ℚ) (sh : Bool) (seed : ℕ) :
    ∀ d ∈ split_pandas_data_with_ratios g rs sh seed,
      d.cols = g.cols ++ ["split_index"] := by
  intro d hd
  rw [split_pandas_data_with_ratios] at hd
  rcases List.mem_map.mp hd with ⟨p, _, hp⟩
  rw [← hp]

theorem groupSlice_sub (g : DataFrame) (rs : List ℚ) (sh : Bool) (seed x : ℕ) :
    ∀ r ∈ groupSlice g rs sh seed x, r ∈ g.rows := by
  intro r hr
  rw [groupSlice] at hr
  by_cases hx : x < (slicesFrom (shuffledRows g sh seed) 0
      (boundaries rs (shuffledRows g sh seed).length)).length
  · rw [List.getD_eq_getElem?_getD, List.getElem?_eq_getElem hx] at hr
    have hmem := List.getElem_mem hx
    exact (shuffledRows_perm g sh seed).subset
      (slicesFrom_mem_mem _ _ _ _ hmem r hr)
  · rw [List.getD_eq_getElem?_getD, List.getElem?_eq_none (Nat.le_of_not_lt hx)] at hr
    simp at hr

theorem map_eraseIdx_concat {w : ℕ} (s : List Row) (v : ℤ)
    (hw : ∀ r ∈ s, r.length = w) :
    (s.map (fun r => r ++ [v])).map (fun r => r.eraseIdx w) = s := by
  rw [List.map_map]
  have h : ∀ r ∈ s, ((fun r => List.eraseIdx r w) ∘ fun r => r ++ [v]) r = id r := by
    intro r hr
    have hl : r.length ≤ w := le_of_eq (hw r hr)
    simp only [Function.comp_apply, id_eq]
    rw [List.eraseIdx_append_of_length_le hl, hw r hr, Nat.sub_self]
    simp
  rw [List.map_congr_left h, List.map_id]

/-- Filtering the tagged flattened output of the partitioner on
`split_index == x` selects exactly the `x`-th tagged segment. -/
theorem enumFrom_tag_filter (w x : ℕ) :
    ∀ (ss : List (List Row)) (j : ℕ), (∀ s ∈ ss, ∀ r ∈ s, r.length = w) →
    (((List.enumFrom j ss).map (fun p => p.2.map (fun r => r ++ [Int.ofNat p.1]))).flatten).filter
      (fun r => r[w]? == some (Int.ofNat x))
    = if j ≤ x then (ss.getD (x - j) []).map (fun r => r ++ [(Int.ofNat x : ℤ)]) else [] := by
  intro ss
  induction ss with
  | nil =>
    intro j _
    simp
  | cons s ss ih =>
    intro j hw
    rw [List.enumFrom_cons, List.map_cons, List.flatten_cons, List.filter_append]
    have hface : ∀ r ∈ s, ((r ++ [Int.ofNat j])[w]? == some (Int.ofNat x))
        = (Int.ofNat j == Int.ofNat x) := by
      intro r hr
      rw [← hw s (by simp) r hr, List.getElem?_concat_length]
      rfl
    by_cases hjx : j = x
    · subst hjx
      have h1 : (s.map (fun r => r ++ [Int.ofNat j])).filter
          (fun r => r[w]? == some (Int.ofNat j)) = s.map (fun r => r ++ [Int.ofNat j]) := by
        rw [List.filter_map]
        have : s.filter ((fun r => r[w]? == some (Int.ofNat j)) ∘ (fun r => r ++ [Int.ofNat j])) = s := by
          rw [List.filter_eq_self]
          intro r hr
          rw [Function.comp_apply, hface r hr]
          simp
        rw [this]
      rw [h1, ih (j + 1) (fun t ht r hr => hw t (by simp [ht]) r hr)]
      rw [if_neg (by omega), if_pos (le_refl j), Nat.sub_self]
      simp
    · have h1 : (s.map (fun r => r ++ [Int.ofNat j])).filter
          (fun r => r[w]? == some (Int.ofNat x)) = [] := by
        rw [List.filter_map]
        have hnil : s.filter ((fun r => r[w]? == some (Int.ofNat x))
            ∘ (fun r => r ++ [Int.ofNat j])) = [] := by
          rw [List.filter_eq_nil_iff]
          intro r hr
          rw [Function.comp_apply, hface r hr]
          simp only [beq_iff_eq, Int.ofNat.injEq]
          exact hjx
        rw [hnil, List.map_nil]
      rw [h1, ih (j + 1) (fun t ht r hr => hw t (by simp [ht]) r hr), List.nil_append]
      by_cases hjle : j ≤ x
      · rw [if_pos (by omega), if_pos hjle]
        obtain ⟨d, hd⟩ : ∃ d, x - j = d + 1 := ⟨x - j - 1, by omega⟩
        rw [hd, List.getD_cons_succ]
        have : x - (j + 1) = d := by omega
        rw [this]
      · rw [if_neg (by omega), if_neg hjle]

theorem taggedGroupRows_filter (g : DataFrame) (rs : List ℚ) (sh : Bool)
    (seed w x : ℕ) (hw : ∀ r ∈ g.rows, r.length = w) :
    (taggedGroupRows g rs sh seed).filter (fun r => r[w]? == some (Int.ofNat x))
      = (groupSlice g rs sh seed x).map (fun r => r ++ [(Int.ofNat x : ℤ)]) := by
  rw [taggedGroupRows, split_pandas_map_rows]
  have hw' : ∀ s ∈ slicesFrom (shuffledRows g sh seed) 0
      (boundaries rs (shuffledRows g sh seed).length), ∀ r ∈ s, r.length = w := by
    intro s hs r hr
    exact hw r ((shuffledRows_perm g sh seed).subset (slicesFrom_mem_mem _ _ _ s hs r hr))
  have h := enumFrom_tag_filter w x (slicesFrom (shuffledRows g sh seed) 0
    (boundaries rs (shuffledRows g sh seed).length)) 0 hw'
  rw [show ∀ (l : List (List Row)), List.enumFrom 0 l = l.enum from fun l => rfl] at h
  rw [h, if_pos (Nat.zero_le x), Nat.sub_zero, groupSlice]

theorem taggedGroupRows_untag (g : DataFrame) (rs : List ℚ) (sh : Bool)
    (seed w : ℕ) (hw : ∀ r ∈ g.rows, r.length = w)
    (hpos : ∀ x ∈ rs, 0 < x) (hsum : rs.sum = 1) (hne : rs ≠ []) :
    (taggedGroupRows g rs sh seed).map (fun r => r.eraseIdx w)
      = shuffledRows g sh seed := by
  rw [taggedGroupRows, split_pandas_map_rows, List.map_flatten, List.map_map]
  have hstep : ∀ p ∈ (slicesFrom (shuffledRows g sh seed) 0
      (boundaries rs (shuffledRows g sh seed).length)).enum,
      ((List.map (fun r => List.eraseIdx r w)) ∘
        (fun p : ℕ × List Row => p.2.map (fun r => r ++ [Int.ofNat p.1]))) p = p.2 := by
    intro p hp
    have hp2 : p.2 ∈ slicesFrom (shuffledRows g sh seed) 0
        (boundaries rs (shuffledRows g sh seed).length) := by
      rcases p with ⟨i, s⟩
      have := List.mem_enum (x := s) (i := i) hp
      rw [this.2]
      exact List.getElem_mem this.1
    have hw2 : ∀ r ∈ p.2, r.length = w := by
      intro r hr
      exact hw r ((shuffledRows_perm g sh seed).subset
        (slicesFrom_mem_mem _ _ _ p.2 hp2 r hr))
    exact map_eraseIdx_concat p.2 (Int.ofNat p.1) hw2
  rw [List.map_congr_left hstep]
  rw [List.enum_map_snd]
  have hspec := boundaries_spec rs (shuffledRows g sh seed).length hpos hsum hne
  rw [slicesFrom_flatten _ 0 _ hspec.1, hspec.2, List.drop_zero, List.take_length]

theorem forall₂_map_eq {α β γ : Type} {f : α → γ} {g : β → γ} :
    ∀ {l1 : List α} {l2 : List β}, List.Forall₂ (fun a b => g b = f a) l1 l2 →
    l2.map g = l1.map f := by
  intro l1 l2 h
  induction h with
  | nil => rfl
  | cons hab _ ih => simp only [List.map_cons, ih, hab]

theorem strat_splits_char {groups splits : List DataFrame} {rs : List ℚ}
    {ir : Bool} {seed : ℕ}
    (h : groups.mapM (fun g => pd_concat (split_pandas_data_with_ratios g rs ir seed))
      = .ok splits) :
    List.Forall₂ (fun g s => s.rows = taggedGroupRows g rs ir seed
      ∧ s.cols = g.cols ++ ["split_index"]) groups splits := by
  apply (mapM_ok_forall₂ h).imp
  intro g s hgs
  rcases pd_concat_ok hgs with ⟨d, t, hdt, hs⟩
  constructor
  · rw [hs]
    rfl
  · rw [hs]
    exact split_pandas_cols g rs ir seed d (by rw [hdt]; exact List.mem_cons_self d t)

/-- First half of the structure theorem: a successful run produces the
reassembly of one concatenated tagged dataset `sa` whose rows are the
groups' tagged partitioner outputs. -/
theorem strat_sa {data : DataFrame} {ratio : RatioInput} {m : ℤ}
    {fb : String} {ir : Bool} {seed : ℕ} {cu ci cts : String}
    {outs : List DataFrame}
    (hwf : ∀ r ∈ data.rows, r.length = data.cols.length)
    (hsi : "split_index" ∉ data.cols)
    (h : _do_stratification data ratio m fb ir seed cu ci cts = .ok outs) :
    ∃ pr sa, process_split_ratio ratio = .ok pr ∧
      sa.rows = ((groupedData data m fb ir cu ci cts).map
        (fun g => taggedGroupRows g (canonRatio pr) ir seed)).flatten ∧
      sa.cols = data.cols ++ ["split_index"] ∧
      outs = (List.range (canonRatio pr).length).map (fun x =>
        dropColumn (filterEq sa "split_index" (Int.ofNat x)) "split_index") := by
  obtain ⟨hfb, hm, hcu, hci, hcts, pr, splits, sa, hpr, hsp, hsa, houts⟩ := do_strat_ok_inv h
  have hchar := strat_splits_char hsp
  rcases pd_concat_ok hsa with ⟨s0, t, hst, hsa_eq⟩
  have hsa_rows : sa.rows = ((groupedData data m fb ir cu ci cts).map
      (fun g => taggedGroupRows g (canonRatio pr) ir seed)).flatten := by
    rw [hsa_eq]
    show (splits.map DataFrame.rows).flatten = _
    congr 1
    exact forall₂_map_eq (hchar.imp (fun _ _ hab => hab.1))
  have hsa_cols : sa.cols = data.cols ++ ["split_index"] := by
    rw [hsa_eq]
    show s0.cols = _
    cases hgroups : groupedData data m fb ir cu ci cts with
    | nil =>
      rw [hgroups, hst] at hchar
      cases hchar
    | cons g0 gt =>
      rw [hgroups, hst] at hchar
      cases hchar with
      | cons hrel _ =>
        rw [hrel.2, groupedData_cols data m fb ir cu ci cts g0 (by rw [hgroups]; simp)]
  exact ⟨pr, sa, hpr, hsa_rows, hsa_cols, houts⟩

theorem strat_structure {data : DataFrame} {ratio : RatioInput} {m : ℤ}
    {fb : String} {ir : Bool} {seed : ℕ} {cu ci cts : String}
    {outs : List DataFrame}
    (hwf : ∀ r ∈ data.rows, r.length = data.cols.length)
    (hsi : "split_index" ∉ data.cols)
    (h : _do_stratification data ratio m fb ir seed cu ci cts = .ok outs) :
    ∃ pr, process_split_ratio ratio = .ok pr ∧
      outs = (List.range (canonRatio pr).length).map (fun x =>
        ⟨data.cols, ((groupedData data m fb ir cu ci cts).map
          (fun g => groupSlice g (canonRatio pr) ir seed x)).flatten⟩) := by
  obtain ⟨pr, sa, hpr, hsa_rows, hsa_cols, houts⟩ := strat_sa hwf hsi h
  refine ⟨pr, hpr, ?_⟩
  have hgwf : ∀ g ∈ groupedData data m fb ir cu ci cts, ∀ r ∈ g.rows,
      r.length = data.cols.length := by
    intro g hg r hr
    exact hwf r (groupedData_rows_sub data m fb ir cu ci cts g hg r hr)
  have hw : colIdx sa "split_index" = data.cols.length := by
    rw [colIdx, hsa_cols, indexOf_append_self hsi]
  rw [houts]
  apply List.map_congr_left
  intro x hx
  have hfe_rows : (filterEq sa "split_index" (Int.ofNat x)).rows
      = ((groupedData data m fb ir cu ci cts).map
        (fun g => (groupSlice g (canonRatio pr) ir seed x).map
          (fun r => r ++ [Int.ofNat x]))).flatten := by
    show sa.rows.filter (fun r => r[colIdx sa "split_index"]? == some (Int.ofNat x)) = _
    rw [hw, hsa_rows, List.filter_flatten, List.map_map]
    congr 1
    apply List.map_congr_left
    intro g hg
    exact taggedGroupRows_filter g (canonRatio pr) ir seed data.cols.length x (hgwf g hg)
  have hfe_cols : (filterEq sa "split_index" (Int.ofNat x)).cols = sa.cols := rfl
  have hdc_ci : colIdx (filterEq sa "split_index" (Int.ofNat x)) "split_index"
      = data.cols.length := by
    rw [colIdx, hfe_cols, ← colIdx, hw]
  rw [dropColumn, hdc_ci, hfe_rows, hfe_cols, hsa_cols]
  have hcols_erase : (data.cols ++ ["split_index"]).eraseIdx data.cols.length
      = data.cols := by
    rw [List.eraseIdx_append_of_length_le (le_refl data.cols.length), Nat.sub_self]
    simp
  rw [hcols_erase]
  have hrows_erase : (((groupedData data m fb ir cu ci cts).map
      (fun g => (groupSlice g (canonRatio pr) ir seed x).map
        (fun r => r ++ [Int.ofNat x]))).flatten).map
        (fun r => r.eraseIdx data.cols.length)
      = ((groupedData data m fb ir cu ci cts).map
        (fun g => groupSlice g (canonRatio pr) ir seed x)).flatten := by
    rw [List.map_flatten, List.map_map]
    congr 1
    apply List.map_congr_left
    intro g hg
    show ((groupSlice g (canonRatio pr) ir seed x).map
      (fun r => r ++ [Int.ofNat x])).map (fun r => r.eraseIdx data.cols.length) = _
    exact map_eraseIdx_concat _ _ (fun r hr => hgwf g hg r (groupSlice_sub g _ ir seed x r hr))
  rw [hrows_erase]

theorem taggedGroupRows_mem (g : DataFrame) (rs : List ℚ) (sh : Bool) (seed : ℕ) :
    ∀ t ∈ taggedGroupRows g rs sh seed,
      ∃ r i, r ∈ g.rows ∧ i < rs.length ∧ t = r ++ [Int.ofNat i] := by
  intro t ht
  rw [taggedGroupRows, split_pandas_map_rows] at ht
  rcases List.mem_flatten.mp ht with ⟨blk, hblk, htb⟩
  rcases List.mem_map.mp hblk with ⟨p, hp, hpeq⟩
  rcases p with ⟨i, s⟩
  have hmem := List.mem_enum (x := s) (i := i) hp
  rw [← hpeq] at htb
  rcases List.mem_map.mp htb with ⟨r, hr, hrt⟩
  refine ⟨r, i, ?_, ?_, hrt.symm⟩
  · have hs_mem : s ∈ slicesFrom (shuffledRows g sh seed) 0
        (boundaries rs (shuffledRows g sh seed).length) := by
      rw [hmem.2]
      exact List.getElem_mem hmem.1
    exact (shuffledRows_perm g sh seed).subset
      (slicesFrom_mem_mem _ _ _ s hs_mem r hr)
  · have h1 := hmem.1
    rwa [slicesFrom_length, boundaries_length] at h1

/-- Row conservation: the concatenation of all output rows of a
successful stratified split is a permutation of the filtered dataset's
rows. -/
theorem strat_flatten_perm {data : DataFrame} {ratio : RatioInput} {m : ℤ}
    {fb : String} {ir : Bool} {seed : ℕ} {cu ci cts : String}
    {outs : List DataFrame}
    (hwf : ∀ r ∈ data.rows, r.length = data.cols.length)
    (hsi : "split_index" ∉ data.cols)
    (h : _do_stratification data ratio m fb ir seed cu ci cts = .ok outs) :
    ((outs.map DataFrame.rows).flatten).Perm (filteredData data m fb cu ci).rows := by
  obtain ⟨pr, sa, hpr, hsa_rows, hsa_cols, houts⟩ := strat_sa hwf hsi h
  obtain ⟨hpos, hsum, hlen2⟩ := canonRatio_ok ratio pr hpr
  have hne : canonRatio pr ≠ [] := by
    intro hc
    rw [hc] at hlen2
    simp at hlen2
  have hgwf : ∀ g ∈ groupedData data m fb ir cu ci cts, ∀ r ∈ g.rows,
      r.length = data.cols.length := by
    intro g hg r hr
    exact hwf r (groupedData_rows_sub data m fb ir cu ci cts g hg r hr)
  have hw : colIdx sa "split_index" = data.cols.length := by
    rw [colIdx, hsa_cols, indexOf_append_self hsi]
  have houts_rows : outs.map DataFrame.rows
      = (List.range (canonRatio pr).length).map
        (fun x => (sa.rows.filter
          (fun t => t[data.cols.length]? == some (Int.ofNat x))).map
          (fun r => r.eraseIdx data.cols.length)) := by
    rw [houts, List.map_map]
    apply List.map_congr_left
    intro x _
    show (dropColumn (filterEq sa "split_index" (Int.ofNat x)) "split_index").rows = _
    have hfec : (filterEq sa "split_index" (Int.ofNat x)).cols = sa.cols := rfl
    have hdc_ci : colIdx (filterEq sa "split_index" (Int.ofNat x)) "split_index"
        = data.cols.length := by
      rw [colIdx, hfec, ← colIdx, hw]
    have hfer : (filterEq sa "split_index" (Int.ofNat x)).rows
        = sa.rows.filter (fun t => t[data.cols.length]? == some (Int.ofNat x)) := by
      show sa.rows.filter (fun t => t[colIdx sa "split_index"]? == some (Int.ofNat x)) = _
      rw [hw]
    rw [dropColumn, hdc_ci]
    show ((filterEq sa "split_index" (Int.ofNat x)).rows).map
      (fun r => r.eraseIdx data.cols.length) = _
    rw [hfer]
  have hcov : ∀ t ∈ sa.rows, t[data.cols.length]?
      ∈ (List.range (canonRatio pr).length).map
        (fun x => (some (Int.ofNat x) : Option ℤ)) := by
    intro t ht
    rw [hsa_rows] at ht
    rcases List.mem_flatten.mp ht with ⟨blk, hblk, htb⟩
    rcases List.mem_map.mp hblk with ⟨g, hg, hgeq⟩
    rw [← hgeq] at htb
    rcases taggedGroupRows_mem g _ ir seed t htb with ⟨r, i, hr, hik, hteq⟩
    have hrw : r.length = data.cols.length := hgwf g hg r hr
    rw [hteq, ← hrw, List.getElem?_concat_length]
    exact List.mem_map.mpr ⟨i, List.mem_range.mpr hik, rfl⟩
  have hnd : ((List.range (canonRatio pr).length).map
      (fun x => (some (Int.ofNat x) : Option ℤ))).Nodup := by
    apply List.Nodup.map ?inj (List.nodup_range _)
    case inj =>
      intro a b hab
      have := Option.some.inj hab
      exact Int.ofNat.inj this
  have hpart := partition_perm (fun t : Row => t[data.cols.length]?)
    ((List.range (canonRatio pr).length).map (fun x => (some (Int.ofNat x) : Option ℤ)))
    sa.rows hnd hcov
  have hmapeq : ((List.range (canonRatio pr).length).map
        (fun x => (some (Int.ofNat x) : Option ℤ))).map
        (fun v => sa.rows.filter (fun t => t[data.cols.length]? == v))
      = (List.range (canonRatio pr).length).map
        (fun x => sa.rows.filter (fun t => t[data.cols.length]? == some (Int.ofNat x))) := by
    rw [List.map_map]
    apply List.map_congr_left
    intro x _
    rfl
  rw [hmapeq] at hpart
  have hfl : (outs.map DataFrame.rows).flatten
      = (((List.range (canonRatio pr).length).map
          (fun x => sa.rows.filter
            (fun t => t[data.cols.length]? == some (Int.ofNat x)))).flatten).map
          (fun r => r.eraseIdx data.cols.length) := by
    rw [houts_rows, List.map_flatten, List.map_map]
    congr 1
  rw [hfl]
  have hperm2 := hpart.map (fun r => List.eraseIdx r data.cols.length)
  apply hperm2.trans
  have huntag : sa.rows.map (fun r => r.eraseIdx data.cols.length)
      = ((groupedData data m fb ir cu ci cts).map
        (fun g => shuffledRows g ir seed)).flatten := by
    rw [hsa_rows, List.map_flatten, List.map_map]
    congr 1
    apply List.map_congr_left
    intro g hg
    exact taggedGroupRows_untag g _ ir seed data.cols.length (hgwf g hg) hpos hsum hne
  rw [huntag]
  have hperm3 : ((((groupedData data m fb ir cu ci cts)).map
      (fun g => shuffledRows g ir seed)).flatten).Perm
      (((groupedData data m fb ir cu ci cts).map DataFrame.rows).flatten) := by
    apply List.Perm.join_congr
    rw [List.forall₂_map_left_iff, List.forall₂_map_right_iff]
    exact List.forall₂_same.mpr (fun g _ => shuffledRows_perm g ir seed)
  apply hperm3.trans
  have hperm4 : (((groupedData data m fb ir cu ci cts).map DataFrame.rows).flatten).Perm
      (baseData data m fb ir cu ci cts).rows := by
    rw [groupedData_eq]
    exact groupby_flatten_perm _ _
  exact hperm4.trans (baseData_rows_perm data m fb ir cu ci cts)

/-! ## Claims -/

/-- Sample dataset used by the concrete witnesses. -/
def sampleDF : DataFrame := ⟨["userID", "colID"], [[1, 10], [1, 11], [2, 20]]⟩

/-- The split of `sampleDF` produced by `_do_stratification` with ratio
3/4, `min_rating` 1, filtering by user, random mode, seed 0. -/
def sampleOuts : List DataFrame :=
  [⟨["userID", "colID"], [[1, 10], [1, 11], [2, 20]]⟩, ⟨["userID", "colID"], []⟩]

/-- C1: for every valid input, the datasets returned by
`_do_stratification` are pairwise disjoint and their union is exactly the
min-rating-filtered input: as multisets of row occurrences, the
concatenation of all outputs is a permutation of the filtered dataset's
rows (every filtered row lands in exactly one output), and hence the total
row count across the outputs equals the filtered row count. -/
theorem C1_row_conservation (data : DataFrame) (ratio : RatioInput) (m : ℤ)
    (fb : String) (ir : Bool) (seed : ℕ) (cu ci cts : String)
    (outs : List DataFrame)
    (hwf : ∀ r ∈ data.rows, r.length = data.cols.length)
    (hsi : "split_index" ∉ data.cols)
    (h : _do_stratification data ratio m fb ir seed cu ci cts = .ok outs) :
    ((outs.map DataFrame.rows).flatten).Perm (filteredData data m fb cu ci).rows ∧
    (outs.map (fun o => o.rows.length)).sum
      = (filteredData data m fb cu ci).rows.length := by
  have hp := strat_flatten_perm hwf hsi h
  refine ⟨hp, ?_⟩
  have hlen := hp.length_eq
  rw [List.length_flatten, List.map_map] at hlen
  exact hlen

theorem C1_row_conservation_witness :
    ((sampleOuts.map DataFrame.rows).flatten).Perm
      (filteredData sampleDF 1 "user" "userID" "colID").rows ∧
    (sampleOuts.map (fun o => o.rows.length)).sum
      = (filteredData sampleDF 1 "user" "userID" "colID").rows.length :=
  C1_row_conservation sampleDF (.single (mkRat 3 4)) 1 "user" true 0 "userID"
    "colID" "timestamp" sampleOuts (by decide) (by decide) (by decide)

theorem map_eq_replicate {α β : Type} (l : List α) (f : α → β) (c : β)
    (h : ∀ a ∈ l, f a = c) : l.map f = List.replicate l.length c := by
  induction l with
  | nil => rfl
  | cons a t ih =>
    rw [List.map_cons, List.length_cons, List.replicate_succ, h a (by simp),
      ih (fun b hb => h b (by simp [hb]))]

theorem dropColumn_concat_cols {d : DataFrame} {base : List String}
    (hc : d.cols = base ++ ["split_index"]) (hsi : "split_index" ∉ base) :
    (dropColumn d "split_index").cols = base := by
  have hci : colIdx d "split_index" = base.length := by
    rw [colIdx, hc, indexOf_append_self hsi]
  show d.cols.eraseIdx (colIdx d "split_index") = base
  rw [hci, hc, List.eraseIdx_append_of_length_le (le_refl base.length), Nat.sub_self]
  simp

/-- C10: every output dataset has exactly the input's columns — the
auxiliary `split_index` column is dropped from every returned set, both by
the reassembly step of `_do_stratification` and by the multi-way branch of
`python_random_split`. -/
theorem C10_columns_preserved (data : DataFrame) (ratio1 ratio2 : RatioInput)
    (m : ℤ) (fb : String) (ir : Bool) (seed1 seed2 : ℕ) (cu ci cts : String)
    (sk : DataFrame → ℚ → ℕ → List DataFrame)
    (outs outs2 : List DataFrame) (rs : List ℚ)
    (hwf : ∀ r ∈ data.rows, r.length = data.cols.length)
    (hsi : "split_index" ∉ data.cols)
    (h1 : _do_stratification data ratio1 m fb ir seed1 cu ci cts = .ok outs)
    (hpr : process_split_ratio ratio2 = .ok (.multi rs))
    (h2 : python_random_split sk data ratio2 seed2 = .ok outs2) :
    outs.map DataFrame.cols = List.replicate outs.length data.cols ∧
    outs2.map DataFrame.cols = List.replicate outs2.length data.cols := by
  constructor
  · obtain ⟨pr, _, houts⟩ := strat_structure hwf hsi h1
    apply map_eq_replicate
    intro o ho
    rw [houts] at ho
    rcases List.mem_map.mp ho with ⟨x, _, hxo⟩
    rw [← hxo]
  · rw [python_random_split, hpr] at h2
    have houts2 : outs2 = (split_pandas_data_with_ratios data rs true seed2).map
        (fun x => dropColumn x "split_index") := (Except.ok.inj h2).symm
    subst houts2
    apply map_eq_replicate
    intro o ho
    rcases List.mem_map.mp ho with ⟨d, hd, hdo⟩
    rw [← hdo]
    exact dropColumn_concat_cols (split_pandas_cols data rs true seed2 d hd) hsi

theorem C10_columns_preserved_witness :
    sampleOuts.map DataFrame.cols
      = List.replicate sampleOuts.length sampleDF.cols ∧
    (([⟨["userID", "colID"], [[1, 11], [2, 20]]⟩,
       ⟨["userID", "colID"], [[1, 10]]⟩] : List DataFrame).map DataFrame.cols)
      = List.replicate 2 sampleDF.cols :=
  C10_columns_preserved sampleDF (.single (mkRat 3 4)) (.list [3, 1]) 1 "user"
    true 0 1 "userID" "colID" "timestamp" (fun d _ _ => [d])
    sampleOuts
    [⟨["userID", "colID"], [[1, 11], [2, 20]]⟩,
     ⟨["userID", "colID"], [[1, 10]]⟩]
    [mkRat 3 4, mkRat 1 4]
    (by decide) (by decide) (by decide) (by decide) (by decide)

theorem process_single_ok {r : ℚ} (h0 : 0 < r) (h1 : r < 1) :
    process_split_ratio (.single r) = .ok (.single r) := by
  rw [process_split_ratio, if_pos ⟨h0, h1⟩]

theorem process_pair_ok {r : ℚ} (h0 : 0 < r) (h1 : r < 1) :
    process_split_ratio (.list [r, 1 - r]) = .ok (.multi [r, 1 - r]) := by
  rw [process_split_ratio]
  have hany : ([r, 1 - r].any (fun x => decide (x ≤ 0))) = false := by
    simp only [List.any_cons, List.any_nil, Bool.or_false, Bool.or_eq_false_iff,
      decide_eq_false_iff_not, not_le]
    exact ⟨h0, by linarith⟩
  rw [if_neg (by simp [hany]), if_neg (by simp), if_pos ?hs]
  case hs =>
    rw [qSum_eq]
    simp

/-- C7: a single fraction `r` with `0 < r < 1` is accepted and reported as
two-way (not multi-way), the stratifier canonicalizes it to the ratio pair
`[r, 1-r]`, and `_do_stratification` behaves exactly as if the two-element
ratio list `[r, 1-r]` had been passed, so exactly two output datasets are
produced, the first receiving proportion `r`. -/
theorem C7_single_fraction (data : DataFrame) (m : ℤ) (fb : String)
    (ir : Bool) (seed : ℕ) (cu ci cts : String) (r : ℚ)
    (h0 : 0 < r) (h1 : r < 1) :
    process_split_ratio (.single r) = .ok (.single r) ∧
    canonRatio (.single r) = [r, 1 - r] ∧
    _do_stratification data (.single r) m fb ir seed cu ci cts
      = _do_stratification data (.list [r, 1 - r]) m fb ir seed cu ci cts ∧
    (∀ outs, _do_stratification data (.single r) m fb ir seed cu ci cts
      = .ok outs → outs.length = 2) := by
  have hcanon : canonRatio (.single r) = [r, 1 - r] := by
    rw [canonRatio, qSub_eq]
  have hmain : _do_stratification data (.single r) m fb ir seed cu ci cts
      = _do_stratification data (.list [r, 1 - r]) m fb ir seed cu ci cts := by
    rw [_do_stratification, _do_stratification]
    by_cases hc1 : ¬(fb = "user" ∨ fb = "item")
    · rw [if_pos hc1, if_pos hc1]
    rw [if_neg hc1, if_neg hc1]
    by_cases hc2 : m < 1
    · rw [if_pos hc2, if_pos hc2]
    rw [if_neg hc2, if_neg hc2]
    by_cases hc3 : cu ∉ data.cols
    · rw [if_pos hc3, if_pos hc3]
    rw [if_neg hc3, if_neg hc3]
    by_cases hc4 : ci ∉ data.cols
    · rw [if_pos hc4, if_pos hc4]
    rw [if_neg hc4, if_neg hc4]
    by_cases hc5 : ir = false ∧ cts ∉ data.cols
    · rw [if_pos hc5, if_pos hc5]
    rw [if_neg hc5, if_neg hc5]
    rw [process_single_ok h0 h1, process_pair_ok h0 h1]
    dsimp only
    rw [hcanon]
    rfl
  refine ⟨process_single_ok h0 h1, hcanon, hmain, ?_⟩
  intro outs houts
  obtain ⟨_, _, _, _, _, pr, _, _, hpr, _, _, hout_eq⟩ := do_strat_ok_inv houts
  rw [process_single_ok h0 h1] at hpr
  have hpr' : pr = .single r := (Except.ok.inj hpr).symm
  subst hpr'
  rw [hout_eq, List.length_map, List.length_range, hcanon]
  rfl

theorem C7_single_fraction_witness :
    process_split_ratio (.single (mkRat 3 4)) = .ok (.single (mkRat 3 4)) ∧
    canonRatio (.single (mkRat 3 4)) = [mkRat 3 4, 1 - mkRat 3 4] ∧
    _do_stratification sampleDF (.single (mkRat 3 4)) 1 "user" true 0
        "userID" "colID" "timestamp"
      = _do_stratification sampleDF (.list [mkRat 3 4, 1 - mkRat 3 4]) 1 "user"
        true 0 "userID" "colID" "timestamp" ∧
    (∀ outs, _do_stratification sampleDF (.single (mkRat 3 4)) 1 "user" true 0
        "userID" "colID" "timestamp" = .ok outs → outs.length = 2) :=
  C7_single_fraction sampleDF 1 "user" true 0 "userID" "colID" "timestamp"
    (mkRat 3 4) (by decide) (by decide)

/-- C6: `python_random_split` dispatches on the ratio form: a multi-way
ratio list is delegated to the proportional partitioner over the whole
dataset with shuffling and the given seed (dropping the auxiliary
`split_index` column), while a two-way single fraction is delegated to the
external sklearn train/test-split primitive (taken as the parameter
`sk_split`) with the fraction as train size (the complement test size
being internal to that primitive, which the source invokes with
`test_size=None`). -/
theorem C6_dispatch (sk : DataFrame → ℚ → ℕ → List DataFrame)
    (data : DataFrame) (seed : ℕ) (r : ℚ) (l rs : List ℚ)
    (h0 : 0 < r) (h1 : r < 1)
    (hpr : process_split_ratio (.list l) = .ok (.multi rs)) :
    python_random_split sk data (.single r) seed = .ok (sk data r seed) ∧
    python_random_split sk data (.list l) seed
      = .ok ((split_pandas_data_with_ratios data rs true seed).map
        (fun x => dropColumn x "split_index")) := by
  constructor
  · rw [python_random_split, process_single_ok h0 h1]
  · rw [python_random_split, hpr]

theorem C6_dispatch_witness :
    python_random_split (fun d _ _ => [d, d]) sampleDF (.single (mkRat 3 4)) 5
      = .ok [sampleDF, sampleDF] ∧
    python_random_split (fun d _ _ => [d, d]) sampleDF (.list [3, 1]) 5
      = .ok ((split_pandas_data_with_ratios sampleDF [mkRat 3 4, mkRat 1 4] true 5).map
        (fun x => dropColumn x "split_index")) :=
  C6_dispatch (fun d _ _ => [d, d]) sampleDF 5 (mkRat 3 4) [3, 1]
    [mkRat 3 4, mkRat 1 4] (by decide) (by decide) (by decide)

theorem groupby_of_rows_nil (df : DataFrame) (c : String) (h : df.rows = []) :
    groupby df c = [] := by
  simp [groupby, h]

theorem strat_empty_error {data : DataFrame} {ratio : RatioInput} {m : ℤ}
    {fb : String} {ir : Bool} {seed : ℕ} {cu ci cts : String}
    (hfb : fb = "user" ∨ fb = "item") (hm : ¬(m < 1))
    (hcu : cu ∈ data.cols) (hci : ci ∈ data.cols)
    (hcts : ¬(ir = false ∧ cts ∉ data.cols))
    {pr : ProcessedRatio} (hpr : process_split_ratio ratio = .ok pr)
    (hempty : (filteredData data m fb cu ci).rows = []) :
    _do_stratification data ratio m fb ir seed cu ci cts
      = .error "No objects to concatenate" := by
  have hbase : (baseData data m fb ir cu ci cts).rows = [] := by
    have hp := baseData_rows_perm data m fb ir cu ci cts
    rw [hempty] at hp
    exact hp.eq_nil
  have hgrp : groupedData data m fb ir cu ci cts = [] := by
    rw [groupedData_eq]
    exact groupby_of_rows_nil _ _ hbase
  rw [_do_stratification, if_neg (not_not_intro hfb), if_neg hm,
    if_neg (not_not_intro hcu), if_neg (not_not_intro hci), if_neg hcts, hpr]
  dsimp only
  rw [hgrp]
  rfl

theorem mapM_ok_of_forall {α β : Type} {f : α → Except String β} :
    ∀ {l : List α}, (∀ a ∈ l, ∃ b, f a = .ok b) → ∃ l', l.mapM f = .ok l' := by
  intro l
  induction l with
  | nil => intro _; exact ⟨[], rfl⟩
  | cons a as ih =>
    intro hall
    rcases hall a (by simp) with ⟨b, hb⟩
    rcases ih (fun s hs => hall s (by simp [hs])) with ⟨bs, hbs⟩
    refine ⟨b :: bs, ?_⟩
    rw [← List.mapM'_eq_mapM] at hbs
    rw [← List.mapM'_eq_mapM, List.mapM', hb, hbs]
    rfl

theorem strat_ok_of_nonempty {data : DataFrame} {ratio : RatioInput} {m : ℤ}
    {fb : String} {ir : Bool} {seed : ℕ} {cu ci cts : String}
    (hfb : fb = "user" ∨ fb = "item") (hm : ¬(m < 1))
    (hcu : cu ∈ data.cols) (hci : ci ∈ data.cols)
    (hcts : ¬(ir = false ∧ cts ∉ data.cols))
    {pr : ProcessedRatio} (hpr : process_split_ratio ratio = .ok pr)
    (hne : (filteredData data m fb cu ci).rows ≠ []) :
    ∃ outs, _do_stratification data ratio m fb ir seed cu ci cts = .ok outs := by
  obtain ⟨hpos, hsum, hlen2⟩ := canonRatio_ok ratio pr hpr
  have hbase : (baseData data m fb ir cu ci cts).rows ≠ [] := by
    intro hc
    apply hne
    have hp := baseData_rows_perm data m fb ir cu ci cts
    rw [hc] at hp
    exact hp.symm.eq_nil
  have hgrp : groupedData data m fb ir cu ci cts ≠ [] := by
    rw [groupedData_eq, groupby]
    intro hc
    rcases List.exists_mem_of_ne_nil _ hbase with ⟨r, hr⟩
    rcases List.map_eq_nil_iff.mp hc with hkeys
    have hmem : r[colIdx (baseData data m fb ir cu ci cts)
        (if fb = "user" then cu else ci)]?
        ∈ (((baseData data m fb ir cu ci cts).rows.map
          (fun r => r[colIdx (baseData data m fb ir cu ci cts)
            (if fb = "user" then cu else ci)]?)).dedup).insertionSort optLeP := by
      rw [(List.perm_insertionSort optLeP _).mem_iff, List.mem_dedup]
      exact List.mem_map_of_mem _ hr
    rw [hkeys] at hmem
    simp at hmem
  have hmapM : ∃ splits, (groupedData data m fb ir cu ci cts).mapM
      (fun g => pd_concat (split_pandas_data_with_ratios g (canonRatio pr) ir seed))
      = .ok splits := by
    apply mapM_ok_of_forall
    intro g _
    have hlen : (split_pandas_data_with_ratios g (canonRatio pr) ir seed).length
        = (canonRatio pr).length := split_pandas_length g _ ir seed
    cases hsd : split_pandas_data_with_ratios g (canonRatio pr) ir seed with
    | nil =>
      rw [hsd] at hlen
      simp only [List.length_nil] at hlen
      omega
    | cons d t => exact ⟨_, rfl⟩
  rcases hmapM with ⟨splits, hsp⟩
  have hsplits_ne : splits ≠ [] := by
    have hlen := (mapM_ok_forall₂ hsp).length_eq
    intro hc
    rw [hc] at hlen
    simp only [List.length_nil] at hlen
    exact hgrp (List.length_eq_zero.mp hlen)
  rcases List.exists_cons_of_ne_nil hsplits_ne with ⟨s0, t, hst⟩
  subst hst
  refine ⟨(List.range (canonRatio pr).length).map (fun x =>
    dropColumn (filterEq ⟨s0.cols, ((s0 :: t).map DataFrame.rows).flatten⟩
      "split_index" (Int.ofNat x)) "split_index"), ?_⟩
  rw [_do_stratification, if_neg (not_not_intro hfb), if_neg hm,
    if_neg (not_not_intro hcu), if_neg (not_not_intro hci), if_neg hcts, hpr]
  dsimp only
  rw [hsp]
  rfl

/-- C9: if the dataset reaching the grouping step has no rows (an empty
input, or the activity filter removed every group), the group loop yields
no group and the subsequent `pd.concat` raises, so the call fails instead
of returning `k` empty outputs. -/
theorem C9_empty_data_error (data : DataFrame) (ratio : RatioInput) (m : ℤ)
    (fb : String) (ir : Bool) (seed : ℕ) (cu ci cts : String)
    (pr : ProcessedRatio)
    (hfb : fb = "user" ∨ fb = "item") (hm : 1 ≤ m)
    (hcu : cu ∈ data.cols) (hci : ci ∈ data.cols)
    (hcts : ir = false → cts ∈ data.cols)
    (hpr : process_split_ratio ratio = .ok pr)
    (hempty : (filteredData data m fb cu ci).rows = []) :
    _do_stratification data ratio m fb ir seed cu ci cts
      = .error "No objects to concatenate" :=
  strat_empty_error hfb (by omega) hcu hci
    (fun hc => hc.2 (hcts hc.1)) hpr hempty

/-- The empty dataset used by the error-handling witnesses. -/
def emptyDF : DataFrame := ⟨["userID", "colID"], []⟩

theorem C9_empty_data_error_witness :
    _do_stratification emptyDF (.single (mkRat 3 4)) 1 "user" true 42
      "userID" "colID" "timestamp" = .error "No objects to concatenate" :=
  C9_empty_data_error emptyDF (.single (mkRat 3 4)) 1 "user" true 42
    "userID" "colID" "timestamp" (.single (mkRat 3 4))
    (by decide) (by decide) (by decide) (by decide)
    (by intro hc; exact absurd hc (by decide)) (by decide) (by decide)

/-- C3 counterexample: on the empty dataset every enumerated validation
condition holds (`filter_by` valid, `min_rating ≥ 1`, the user and item
columns present, timestamp not required in random mode), yet
`_do_stratification` raises instead of returning the full list of `k`
output datasets. -/
theorem C3_counterexample :
    ("user" = "user" ∨ "user" = "item") ∧ (1 : ℤ) ≤ 1 ∧
    "userID" ∈ emptyDF.cols ∧ "colID" ∈ emptyDF.cols ∧
    _do_stratification emptyDF (.single (mkRat 3 4)) 1 "user" true 42
      "userID" "colID" "timestamp" = .error "No objects to concatenate" := by
  refine ⟨Or.inl rfl, le_refl 1, by decide, by decide, by decide⟩

/-- C3 (amended): `_do_stratification` raises an error exactly when the
input is invalid — `filter_by` not "user"/"item", `min_rating < 1`, the
user or item column missing, or (chronological mode) the timestamp column
missing — or the ratio specification is itself invalid, or the dataset
left after the min-rating filter step is empty (the concatenation of zero
groups raises); otherwise it returns the full list of `k` output datasets
(`k` the canonical ratio count), with no partial-success outcome. A
missing-column rejection identifies the missing column: the first absent
column among user, item, and (chronological mode) timestamp is named in
the error message. -/
theorem C3_error_conditions (data : DataFrame) (ratio : RatioInput) (m : ℤ)
    (fb : String) (ir : Bool) (seed : ℕ) (cu ci cts : String) :
    ((∃ e, _do_stratification data ratio m fb ir seed cu ci cts = .error e) ↔
      (¬(fb = "user" ∨ fb = "item") ∨ m < 1 ∨ cu ∉ data.cols ∨ ci ∉ data.cols ∨
       (ir = false ∧ cts ∉ data.cols) ∨
       (∃ e, process_split_ratio ratio = .error e) ∨
       (filteredData data m fb cu ci).rows = [])) ∧
    (∀ pr outs, process_split_ratio ratio = .ok pr →
      _do_stratification data ratio m fb ir seed cu ci cts = .ok outs →
      outs.length = (canonRatio pr).length) ∧
    ((fb = "user" ∨ fb = "item") → 1 ≤ m →
      (cu ∉ data.cols →
        _do_stratification data ratio m fb ir seed cu ci cts
          = .error "Schema of data not valid. Missing User Col") ∧
      (cu ∈ data.cols → ci ∉ data.cols →
        _do_stratification data ratio m fb ir seed cu ci cts
          = .error "Schema of data not valid. Missing Item Col") ∧
      (cu ∈ data.cols → ci ∈ data.cols → ir = false → cts ∉ data.cols →
        _do_stratification data ratio m fb ir seed cu ci cts
          = .error "Schema of data not valid. Missing Timestamp Col")) := by
  refine ⟨⟨?_, ?_⟩, ?_, ?_⟩
  · intro he
    by_contra hdis
    push_neg at hdis
    obtain ⟨h1, h2, h3, h4, h5, h6, h7⟩ := hdis
    rcases he with ⟨e, he⟩
    cases hps : process_split_ratio ratio with
    | error e2 => exact h6 e2 hps
    | ok pr =>
      rcases strat_ok_of_nonempty h1 (by omega) h3 h4
        (fun hc => hc.2 (h5 hc.1)) hps h7 with ⟨outs, hok⟩
      rw [hok] at he
      exact Except.noConfusion he
  · intro hdis
    by_cases h1 : ¬(fb = "user" ∨ fb = "item")
    · exact ⟨_, by rw [_do_stratification, if_pos h1]⟩
    by_cases h2 : m < 1
    · exact ⟨_, by rw [_do_stratification, if_neg h1, if_pos h2]⟩
    by_cases h3 : cu ∉ data.cols
    · exact ⟨_, by rw [_do_stratification, if_neg h1, if_neg h2, if_pos h3]⟩
    by_cases h4 : ci ∉ data.cols
    · exact ⟨_, by rw [_do_stratification, if_neg h1, if_neg h2, if_neg h3,
        if_pos h4]⟩
    by_cases h5 : ir = false ∧ cts ∉ data.cols
    · exact ⟨_, by rw [_do_stratification, if_neg h1, if_neg h2, if_neg h3,
        if_neg h4, if_pos h5]⟩
    cases hps : process_split_ratio ratio with
    | error e =>
      refine ⟨e, ?_⟩
      rw [_do_stratification, if_neg h1, if_neg h2, if_neg h3, if_neg h4,
        if_neg h5, hps]
    | ok pr =>
      rcases hdis with hd | hd | hd | hd | hd | hd | hd
      · exact absurd hd h1
      · exact absurd hd h2
      · exact absurd hd h3
      · exact absurd hd h4
      · exact absurd hd h5
      · rcases hd with ⟨e, he⟩
        rw [hps] at he
        exact Except.noConfusion he
      · exact ⟨_, strat_empty_error (not_not.mp h1) h2 (not_not.mp h3)
          (not_not.mp h4) h5 hps hd⟩
  · intro pr outs hpr hok
    obtain ⟨_, _, _, _, _, pr2, _, _, hpr2, _, _, hout_eq⟩ := do_strat_ok_inv hok
    rw [hpr] at hpr2
    have hpp : pr2 = pr := (Except.ok.inj hpr2).symm
    subst hpp
    rw [hout_eq, List.length_map, List.length_range]
  · intro hfb hm
    refine ⟨?_, ?_, ?_⟩
    · intro hcu
      rw [_do_stratification, if_neg (not_not_intro hfb), if_neg (by omega),
        if_pos hcu]
    · intro hcu hci
      rw [_do_stratification, if_neg (not_not_intro hfb), if_neg (by omega),
        if_neg (not_not_intro hcu), if_pos hci]
    · intro hcu hci hir hcts
      rw [_do_stratification, if_neg (not_not_intro hfb), if_neg (by omega),
        if_neg (not_not_intro hcu), if_neg (not_not_intro hci),
        if_pos ⟨hir, hcts⟩]

theorem C3_error_conditions_witness :
    (∃ e, _do_stratification emptyDF (.single (mkRat 3 4)) 1 "user" true 42
      "userID" "colID" "timestamp" = .error e) ∧
    _do_stratification (⟨["colID"], []⟩ : DataFrame) (.single (mkRat 3 4)) 1
      "user" true 42 "userID" "colID" "timestamp"
      = .error "Schema of data not valid. Missing User Col" :=
  ⟨(C3_error_conditions emptyDF (.single (mkRat 3 4)) 1 "user" true 42
      "userID" "colID" "timestamp").1.mpr (Or.inr (Or.inr (Or.inr (Or.inr
        (Or.inr (Or.inr (by decide))))))),
    ((C3_error_conditions (⟨["colID"], []⟩ : DataFrame) (.single (mkRat 3 4)) 1
      "user" true 42 "userID" "colID" "timestamp").2.2 (Or.inl rfl)
      (by decide)).1 (by decide)⟩

theorem min_rating_filter_one (data : DataFrame) (fb cu ci : String) :
    min_rating_filter_pandas data 1 fb cu ci = data := by
  rcases data with ⟨cols, rows⟩
  rw [min_rating_filter_pandas]
  dsimp only
  congr 1
  rw [List.filter_eq_self]
  intro r hr
  have hmem : r ∈ rows.filter (fun r2 =>
      r2[(⟨cols, rows⟩ : DataFrame).cols.indexOf
        (if fb = "user" then cu else ci)]? == r[(⟨cols, rows⟩ : DataFrame).cols.indexOf
        (if fb = "user" then cu else ci)]?) :=
    List.mem_filter.mpr ⟨hr, beq_self_eq_true _⟩
  have hlen : 0 < (rows.filter (fun r2 =>
      r2[(⟨cols, rows⟩ : DataFrame).cols.indexOf
        (if fb = "user" then cu else ci)]? == r[(⟨cols, rows⟩ : DataFrame).cols.indexOf
        (if fb = "user" then cu else ci)]?)).length :=
    List.length_pos.mpr (List.ne_nil_of_mem hmem)
  simp only [decide_eq_true_eq]
  exact_mod_cast hlen

theorem filteredData_key_filter (data : DataFrame) (m : ℤ) (fb cu ci : String)
    (i : ℕ) (hm : 1 ≤ m) (hi : i = colIdx data (if fb = "user" then cu else ci))
    (v : Option ℤ) :
    (filteredData data m fb cu ci).rows.filter (fun r => r[i]? == v)
      = if m ≤ ((data.rows.filter (fun r => r[i]? == v)).length : ℤ)
        then data.rows.filter (fun r => r[i]? == v) else [] := by
  rw [filteredData]
  by_cases h1 : 1 < m
  · rw [if_pos h1, min_rating_filter_pandas]
    dsimp only
    rw [← hi, List.filter_comm]
    by_cases hc : m ≤ ((data.rows.filter (fun r => r[i]? == v)).length : ℤ)
    · rw [if_pos hc, List.filter_eq_self]
      intro r hr
      have hkey : r[i]? = v := by
        have := (List.mem_filter.mp hr).2
        simpa using this
      simp only [decide_eq_true_eq]
      calc m ≤ ((data.rows.filter (fun r2 => r2[i]? == v)).length : ℤ) := hc
      _ = ((data.rows.filter (fun r2 => r2[i]? == r[i]?)).length : ℤ) := by rw [hkey]
    · rw [if_neg hc, List.filter_eq_nil_iff]
      intro r hr
      have hkey : r[i]? = v := by
        have := (List.mem_filter.mp hr).2
        simpa using this
      simp only [decide_eq_true_eq, not_le]
      calc ((data.rows.filter (fun r2 => r2[i]? == r[i]?)).length : ℤ)
          = ((data.rows.filter (fun r2 => r2[i]? == v)).length : ℤ) := by rw [hkey]
      _ < m := lt_of_not_le hc
  · rw [if_neg h1]
    have hm1 : m = 1 := by omega
    subst hm1
    cases hl : data.rows.filter (fun r => r[i]? == v) with
    | nil => simp
    | cons r t =>
      rw [if_pos ?pos]
      case pos =>
        have h0 : 1 ≤ (r :: t).length := by simp
        exact_mod_cast h0

/-- C8: the activity filter is applied exactly when `min_rating > 1` —
`min_rating = 1` leaves the dataset unchanged (both the filter itself and
the filter step are identities) — and when applied, every group whose row
count under the stratification key is below the threshold is excluded
entirely from all outputs, while every group meeting the threshold is
included entirely (its full row count is distributed over the outputs). -/
theorem C8_activity_filter (data : DataFrame) (ratio : RatioInput) (m : ℤ)
    (fb : String) (ir : Bool) (seed : ℕ) (cu ci cts : String)
    (outs : List DataFrame) (i : ℕ) (v : Option ℤ)
    (hwf : ∀ r ∈ data.rows, r.length = data.cols.length)
    (hsi : "split_index" ∉ data.cols)
    (hi : i = colIdx data (if fb = "user" then cu else ci))
    (h : _do_stratification data ratio m fb ir seed cu ci cts = .ok outs) :
    min_rating_filter_pandas data 1 fb cu ci = data ∧
    filteredData data 1 fb cu ci = data ∧
    (((data.rows.filter (fun r => r[i]? == v)).length : ℤ) < m →
      ∀ o ∈ outs, o.rows.filter (fun r => r[i]? == v) = []) ∧
    (m ≤ ((data.rows.filter (fun r => r[i]? == v)).length : ℤ) →
      (outs.map (fun o => (o.rows.filter (fun r => r[i]? == v)).length)).sum
        = (data.rows.filter (fun r => r[i]? == v)).length) := by
  have hm : 1 ≤ m := (do_strat_ok_inv h).2.1
  have hperm := (strat_flatten_perm hwf hsi h).filter (fun r => r[i]? == v)
  rw [filteredData_key_filter data m fb cu ci i hm hi v] at hperm
  have hff : ((outs.map DataFrame.rows).flatten).filter (fun r => r[i]? == v)
      = ((outs.map (fun o => o.rows.filter (fun r => r[i]? == v)))).flatten := by
    rw [List.filter_flatten, List.map_map]
    rfl
  rw [hff] at hperm
  refine ⟨min_rating_filter_one data fb cu ci, ?_, ?_, ?_⟩
  · rw [filteredData, if_neg (by omega)]
  · intro hlt o ho
    rw [if_neg (not_le.mpr hlt)] at hperm
    have hnil := hperm.eq_nil
    exact (List.flatten_eq_nil_iff.mp hnil) _
      (List.mem_map_of_mem (fun o => o.rows.filter (fun r => r[i]? == v)) ho)
  · intro hle
    rw [if_pos hle] at hperm
    have hlen := hperm.length_eq
    rw [List.length_flatten, List.map_map] at hlen
    exact hlen

theorem C8_activity_filter_witness :
    min_rating_filter_pandas sampleDF 1 "user" "userID" "colID" = sampleDF ∧
    filteredData sampleDF 1 "user" "userID" "colID" = sampleDF ∧
    (((sampleDF.rows.filter (fun r => r[0]? == some 2)).length : ℤ) < 2 →
      ∀ o ∈ ([⟨["userID", "colID"], [[1, 10], [1, 11]]⟩,
              ⟨["userID", "colID"], ([] : List Row)⟩] : List DataFrame),
        o.rows.filter (fun r => r[0]? == some 2) = []) ∧
    ((2 : ℤ) ≤ ((sampleDF.rows.filter (fun r => r[0]? == some 2)).length : ℤ) →
      (([⟨["userID", "colID"], [[1, 10], [1, 11]]⟩,
         ⟨["userID", "colID"], ([] : List Row)⟩] : List DataFrame).map
        (fun o => (o.rows.filter (fun r => r[0]? == some 2)).length)).sum
        = (sampleDF.rows.filter (fun r => r[0]? == some 2)).length) :=
  C8_activity_filter sampleDF (.single (mkRat 3 4)) 2 "user" true 0 "userID"
    "colID" "timestamp"
    [⟨["userID", "colID"], [[1, 10], [1, 11]]⟩,
     ⟨["userID", "colID"], ([] : List Row)⟩] 0 (some 2)
    (by decide) (by decide) (by decide) (by decide)

theorem round_add_sub_bound (x y : ℚ) :
    |round (x + y) - round x - round y| ≤ 1 := by
  have h1 := abs_sub_round (x + y)
  have h2 := abs_sub_round x
  have h3 := abs_sub_round y
  have hq : |((round (x + y) - round x - round y : ℤ) : ℚ)| ≤ 3/2 := by
    push_cast
    have he : ((round (x + y) : ℚ)) - round x - round y
        = (x - round x) + (y - round y) - ((x + y) - round (x + y)) := by ring
    rw [he]
    calc |(x - round x) + (y - round y) - ((x + y) - round (x + y))|
        ≤ |(x - round x) + (y - round y)| + |(x + y) - round (x + y)| := abs_sub _ _
    _ ≤ |x - round x| + |y - round y| + |(x + y) - round (x + y)| := by
        have := abs_add (x - round x) (y - round y)
        linarith
    _ ≤ 3/2 := by linarith
  have hz : |(round (x + y) - round x - round y : ℤ)| < 2 := by
    have h4 : ((|round (x + y) - round x - round y| : ℤ) : ℚ) < 2 := by
      rw [Int.cast_abs]
      linarith
    exact_mod_cast h4
  omega

theorem cumsumFrom_chain (rs : List ℚ) :
    ∀ acc, (∀ x ∈ rs, 0 ≤ x) → List.Chain (· ≤ ·) acc (cumsumFrom acc rs) := by
  induction rs with
  | nil => intro acc _; exact List.Chain.nil
  | cons x xs ih =>
    intro acc hpos
    rw [cumsumFrom]
    refine List.Chain.cons ?_ (ih (qAdd acc x) (fun y hy => hpos y (by simp [hy])))
    rw [qAdd_eq]
    linarith [hpos x (by simp)]

theorem chain_le_map {f : ℚ → ℕ} (hf : ∀ a b, a ≤ b → f a ≤ f b) :
    ∀ {l : List ℚ} {prev : ℚ}, List.Chain (· ≤ ·) prev l →
    List.Chain (· ≤ ·) (f prev) (l.map f) := by
  intro l
  induction l with
  | nil => intro prev _; exact List.Chain.nil
  | cons x xs ih =>
    intro prev hc
    rcases List.chain_cons.mp hc with ⟨h1, h2⟩
    exact List.Chain.cons (hf _ _ h1) (ih h2)

theorem monoClamp_eq_self : ∀ (l : List ℕ) (prev : ℕ),
    List.Chain (· ≤ ·) prev l → monoClamp prev l = l := by
  intro l
  induction l with
  | nil => intro prev _; rfl
  | cons x xs ih =>
    intro prev hc
    rcases List.chain_cons.mp hc with ⟨h1, h2⟩
    rw [monoClamp, Nat.max_eq_right h1, ih x h2]

theorem cumsumFrom_getLastD (rs : List ℚ) :
    ∀ acc d, rs ≠ [] → (cumsumFrom acc rs).getLastD d = acc + rs.sum := by
  induction rs with
  | nil => intro _ _ hc; exact absurd rfl hc
  | cons x xs ih =>
    intro acc d _
    rw [cumsumFrom, List.getLastD_cons, List.sum_cons]
    by_cases hxs : xs = []
    · subst hxs
      show (cumsumFrom (qAdd acc x) []).getLastD (qAdd acc x) = _
      rw [cumsumFrom, qAdd_eq]
      show acc + x = acc + (x + ([] : List ℚ).sum)
      simp
    · rw [ih (qAdd acc x) (qAdd acc x) hxs, qAdd_eq]
      ring

theorem getLastD_congr {α : Type} (l : List α) (d1 d2 : α) (h : l ≠ []) :
    l.getLastD d1 = l.getLastD d2 := by
  rw [List.getLastD_eq_getLast?, List.getLastD_eq_getLast?]
  cases hl : l.getLast? with
  | none => exact absurd (List.getLast?_eq_none_iff.mp hl) h
  | some a => rfl

theorem forceLast_eq_self : ∀ (l : List ℕ) (n : ℕ),
    l.getLastD 0 = n → forceLast l n = l := by
  intro l
  induction l with
  | nil => intro n _; rfl
  | cons x xs ih =>
    intro n h
    cases xs with
    | nil => rw [forceLast]; rw [show ([x] : List ℕ).getLastD 0 = x from rfl] at h; rw [h]
    | cons y ys =>
      rw [forceLast, ih n ?h2]
      case h2 =>
        rw [List.getLastD_cons] at h
        rw [← h]
        exact (getLastD_congr _ _ _ (by simp)).symm

theorem getLastD_map (f : ℚ → ℕ) : ∀ (l : List ℚ) (d : ℚ),
    (l.map f).getLastD (f d) = f (l.getLastD d) := by
  intro l
  induction l with
  | nil => intro d; rfl
  | cons x xs ih =>
    intro d
    rw [List.map_cons, List.getLastD_cons, List.getLastD_cons, ih]

theorem qRoundMul_mono (n : ℕ) {a b : ℚ} (h : a ≤ b) :
    (qRound (qMulNat a n)).toNat ≤ (qRound (qMulNat b n)).toNat := by
  apply Int.toNat_le_toNat
  rw [qRound_eq, qRound_eq, qMulNat_eq, qMulNat_eq]
  apply round_mono_q
  have hn : (0:ℚ) ≤ (n:ℚ) := by positivity
  nlinarith

theorem qRoundMul_zero (n : ℕ) : (qRound (qMulNat 0 n)).toNat = 0 := by
  rw [qRound_eq, qMulNat_eq]
  norm_num

theorem qRoundMul_one (n : ℕ) : (qRound (qMulNat 1 n)).toNat = n := by
  rw [qRound_eq, qMulNat_eq, one_mul, round_natCast, Int.toNat_natCast]

/-- Under the canonical-ratio hypotheses, the clamped forced boundary list
is just the raw list of rounded cumulative proportions. -/
theorem boundaries_eq_raw (rs : List ℚ) (n : ℕ) (hpos : ∀ x ∈ rs, 0 < x)
    (hsum : rs.sum = 1) (hne : rs ≠ []) :
    boundaries rs n
      = (cumsumFrom 0 rs).map (fun c => (qRound (qMulNat c n)).toNat) := by
  have hchain : List.Chain (· ≤ ·) 0
      ((cumsumFrom 0 rs).map (fun c => (qRound (qMulNat c n)).toNat)) := by
    have h0 : (0 : ℕ) = (qRound (qMulNat 0 n)).toNat := (qRoundMul_zero n).symm
    rw [h0]
    exact chain_le_map (fun a b hab => qRoundMul_mono n hab)
      (cumsumFrom_chain rs 0 (fun x hx => le_of_lt (hpos x hx)))
  have hlast : ((cumsumFrom 0 rs).map
      (fun c => (qRound (qMulNat c n)).toNat)).getLastD 0 = n := by
    have hcl : (cumsumFrom 0 rs).getLastD 0 = 1 := by
      rw [cumsumFrom_getLastD rs 0 0 hne, hsum]
      ring
    have h0 : (0 : ℕ) = (qRound (qMulNat 0 n)).toNat := (qRoundMul_zero n).symm
    rw [h0, getLastD_map, hcl, qRoundMul_one]
  rw [boundaries, monoClamp_eq_self _ _ hchain, forceLast_eq_self _ _ hlast]

theorem slices_ratio_bound (rows' : List Row) :
    ∀ (rs : List ℚ) (c0 : ℚ), (∀ x ∈ rs, 0 < x) → 0 ≤ c0 → c0 + rs.sum = 1 →
    List.Forall₂ (fun (s : List Row) (r : ℚ) =>
        |(s.length : ℤ) - round (r * (rows'.length : ℚ))| ≤ 1)
      (slicesFrom rows' ((qRound (qMulNat c0 rows'.length)).toNat)
        ((cumsumFrom c0 rs).map (fun c => (qRound (qMulNat c rows'.length)).toNat)))
      rs := by
  intro rs
  induction rs with
  | nil => intro c0 _ _ _; exact List.Forall₂.nil
  | cons r rs' ih =>
    intro c0 hpos hc0 hsum
    have hrpos : 0 < r := hpos r (by simp)
    have hsum0 : 0 ≤ rs'.sum :=
      List.sum_nonneg (fun y hy => le_of_lt (hpos y (by simp [hy])))
    rw [List.sum_cons] at hsum
    rw [cumsumFrom, List.map_cons, slicesFrom]
    refine List.Forall₂.cons ?_ ?_
    · have hc1 : c0 + r ≤ 1 := by linarith
      have hq_le_n : (qRound (qMulNat (qAdd c0 r) rows'.length)).toNat ≤ rows'.length := by
        calc (qRound (qMulNat (qAdd c0 r) rows'.length)).toNat
            ≤ (qRound (qMulNat 1 rows'.length)).toNat := by
              apply qRoundMul_mono
              rw [qAdd_eq]
              linarith
        _ = rows'.length := qRoundMul_one _
      have hp_le_q : (qRound (qMulNat c0 rows'.length)).toNat
          ≤ (qRound (qMulNat (qAdd c0 r) rows'.length)).toNat := by
        apply qRoundMul_mono
        rw [qAdd_eq]
        linarith
      have hlen : ((rows'.take ((qRound (qMulNat (qAdd c0 r) rows'.length)).toNat)).drop
          ((qRound (qMulNat c0 rows'.length)).toNat)).length
          = (qRound (qMulNat (qAdd c0 r) rows'.length)).toNat
            - (qRound (qMulNat c0 rows'.length)).toNat := by
        rw [List.length_drop, List.length_take, Nat.min_eq_left hq_le_n]
      have hp_nonneg : 0 ≤ qRound (qMulNat c0 rows'.length) := by
        rw [qRound_eq, qMulNat_eq]
        calc (0:ℤ) = round (0 : ℚ) := round_zero.symm
        _ ≤ _ := round_mono_q (by positivity)
      have hq_nonneg : 0 ≤ qRound (qMulNat (qAdd c0 r) rows'.length) := by
        rw [qRound_eq, qMulNat_eq]
        calc (0:ℤ) = round (0 : ℚ) := round_zero.symm
        _ ≤ _ := round_mono_q (by rw [qAdd_eq]; positivity)
      rw [hlen]
      have hcast : (((qRound (qMulNat (qAdd c0 r) rows'.length)).toNat
          - (qRound (qMulNat c0 rows'.length)).toNat : ℕ) : ℤ)
          = qRound (qMulNat (qAdd c0 r) rows'.length)
            - qRound (qMulNat c0 rows'.length) := by
        rw [Nat.cast_sub hp_le_q, Int.toNat_of_nonneg hq_nonneg,
          Int.toNat_of_nonneg hp_nonneg]
      rw [hcast, qRound_eq, qRound_eq, qMulNat_eq, qMulNat_eq, qAdd_eq, add_mul]
      exact round_add_sub_bound _ _
    · exact ih (qAdd c0 r)
        (fun x hx => hpos x (by simp [hx]))
        (by rw [qAdd_eq]; linarith)
        (by rw [qAdd_eq]; linarith)

theorem forall₂_getD {α β : Type} {R : α → β → Prop} :
    ∀ {l1 : List α} {l2 : List β}, List.Forall₂ R l1 l2 →
    ∀ (x : ℕ) (d1 : α) (d2 : β), x < l2.length → R (l1.getD x d1) (l2.getD x d2) := by
  intro l1 l2 h
  induction h with
  | nil => intro x _ _ hx; simp at hx
  | cons hab htail ih =>
    intro x d1 d2 hx
    cases x with
    | zero => exact hab
    | succ k =>
      rw [List.getD_cons_succ, List.getD_cons_succ]
      exact ih k d1 d2 (by simpa using hx)

theorem shuffledRows_length (df : DataFrame) (sh : Bool) (seed : ℕ) :
    (shuffledRows df sh seed).length = df.rows.length := by
  rw [shuffledRows]
  split
  · exact List.length_rotate _ _
  · rfl

theorem split_pandas_counts (df : DataFrame) (rs : List ℚ) (sh : Bool) (seed : ℕ) :
    (split_pandas_data_with_ratios df rs sh seed).map (fun d => d.rows.length)
      = (slicesFrom (shuffledRows df sh seed) 0
          (boundaries rs (shuffledRows df sh seed).length)).map List.length := by
  have h1 : (split_pandas_data_with_ratios df rs sh seed).map (fun d => d.rows.length)
      = ((split_pandas_data_with_ratios df rs sh seed).map DataFrame.rows).map
        List.length := by
    rw [List.map_map]
    rfl
  rw [h1, split_pandas_map_rows, List.map_map]
  have h2 : ∀ p ∈ (slicesFrom (shuffledRows df sh seed) 0
      (boundaries rs (shuffledRows df sh seed).length)).enum,
      (List.length ∘ (fun p : ℕ × List Row => p.2.map (fun r => r ++ [Int.ofNat p.1]))) p
        = (List.length ∘ Prod.snd) p := by
    intro p _
    show (p.2.map (fun r => r ++ [Int.ofNat p.1])).length = p.2.length
    rw [List.length_map]
  rw [List.map_congr_left h2, ← List.map_map, List.enum_map_snd]

/-- C2: for `n` rows and a canonical ratio list, the partitioner computes
cumulative boundaries `b_i = round(c_i * n)` with the last boundary forced
to `n` exactly, the per-output row counts sum to `n` exactly, and each
output's row count is within 1 of `round(r_i * n)` (cumulative,
boundary-based rounding). -/
theorem C2_ratio_fidelity (df : DataFrame) (rs : List ℚ) (sh : Bool) (seed : ℕ)
    (hpos : ∀ x ∈ rs, 0 < x) (hsum : rs.sum = 1) (hne : rs ≠ []) :
    (boundaries rs df.rows.length).getLastD 0 = df.rows.length ∧
    ((split_pandas_data_with_ratios df rs sh seed).map (fun d => d.rows.length)).sum
      = df.rows.length ∧
    ∀ x, x < rs.length →
      |((((split_pandas_data_with_ratios df rs sh seed).getD x ⟨[], []⟩).rows.length : ℤ)
        - round ((rs.getD x 0) * (df.rows.length : ℚ)))| ≤ 1 := by
  have hsl := shuffledRows_length df sh seed
  have hspec := boundaries_spec rs (shuffledRows df sh seed).length hpos hsum hne
  refine ⟨(boundaries_spec rs df.rows.length hpos hsum hne).2, ?_, ?_⟩
  · rw [split_pandas_counts]
    have hflat := slicesFrom_flatten (shuffledRows df sh seed) 0 _ hspec.1
    rw [hspec.2, List.drop_zero, List.take_length] at hflat
    calc ((slicesFrom (shuffledRows df sh seed) 0
          (boundaries rs (shuffledRows df sh seed).length)).map List.length).sum
        = ((slicesFrom (shuffledRows df sh seed) 0
          (boundaries rs (shuffledRows df sh seed).length)).flatten).length :=
          (List.length_flatten _).symm
    _ = df.rows.length := by rw [hflat, hsl]
  · intro x hx
    have hforall := slices_ratio_bound (shuffledRows df sh seed) rs 0 hpos
      (le_refl 0) (by rw [zero_add]; exact hsum)
    rw [qRoundMul_zero,
      ← boundaries_eq_raw rs (shuffledRows df sh seed).length hpos hsum hne] at hforall
    have hR := forall₂_getD hforall x [] 0 hx
    have hc1 : ((split_pandas_data_with_ratios df rs sh seed).getD x ⟨[], []⟩).rows.length
        = ((split_pandas_data_with_ratios df rs sh seed).map
          (fun d => d.rows.length)).getD x 0 :=
      (List.getD_map (split_pandas_data_with_ratios df rs sh seed) ⟨[], []⟩
        (fun d => d.rows.length)).symm
    have hc3 : ((slicesFrom (shuffledRows df sh seed) 0
        (boundaries rs (shuffledRows df sh seed).length)).map List.length).getD x 0
        = ((slicesFrom (shuffledRows df sh seed) 0
          (boundaries rs (shuffledRows df sh seed).length)).getD x []).length :=
      List.getD_map _ ([] : List Row) List.length
    rw [hc1, split_pandas_counts, hc3, ← hsl]
    exact hR

theorem C2_ratio_fidelity_witness :
    (boundaries [mkRat 1 4, mkRat 1 4, mkRat 1 2] sampleDF.rows.length).getLastD 0
      = sampleDF.rows.length ∧
    ((split_pandas_data_with_ratios sampleDF [mkRat 1 4, mkRat 1 4, mkRat 1 2]
      true 0).map (fun d => d.rows.length)).sum = sampleDF.rows.length ∧
    ∀ x, x < ([mkRat 1 4, mkRat 1 4, mkRat 1 2] : List ℚ).length →
      |((((split_pandas_data_with_ratios sampleDF [mkRat 1 4, mkRat 1 4, mkRat 1 2]
          true 0).getD x ⟨[], []⟩).rows.length : ℤ)
        - round ((([mkRat 1 4, mkRat 1 4, mkRat 1 2] : List ℚ).getD x 0)
          * (sampleDF.rows.length : ℚ)))| ≤ 1 :=
  C2_ratio_fidelity sampleDF [mkRat 1 4, mkRat 1 4, mkRat 1 2] true 0
    (by decide) (by rw [← qSum_eq]; decide) (by decide)

theorem slicesFrom_pairwise_mem {R : Row → Row → Prop} {l : List Row}
    (h : List.Pairwise R l) :
    ∀ (prev : ℕ) (bs : List ℕ), ∀ s ∈ slicesFrom l prev bs, List.Pairwise R s := by
  intro prev bs
  induction bs generalizing prev with
  | nil => intro s hs; simp [slicesFrom] at hs
  | cons b bs ih =>
    intro s hs
    rw [slicesFrom, List.mem_cons] at hs
    rcases hs with hs | hs
    · subst hs
      exact h.sublist ((List.drop_sublist _ _).trans (List.take_sublist _ _))
    · exact ih b s hs

theorem groupSlice_pairwise {R : Row → Row → Prop} {g : DataFrame}
    (h : List.Pairwise R g.rows) (rs : List ℚ) (seed x : ℕ) :
    List.Pairwise R (groupSlice g rs false seed x) := by
  rw [groupSlice]
  have hsh : shuffledRows g false seed = g.rows := rfl
  by_cases hx : x < (slicesFrom (shuffledRows g false seed) 0
      (boundaries rs (shuffledRows g false seed).length)).length
  · rw [List.getD_eq_getElem?_getD, List.getElem?_eq_getElem hx]
    have hP : List.Pairwise R (shuffledRows g false seed) := by rw [hsh]; exact h
    exact slicesFrom_pairwise_mem hP 0 _ _ (List.getElem_mem hx)
  · rw [List.getD_eq_getElem?_getD, List.getElem?_eq_none (Nat.le_of_not_lt hx)]
    exact List.Pairwise.nil

theorem colIdx_congr {d1 d2 : DataFrame} (c : String) (h : d1.cols = d2.cols) :
    colIdx d1 c = colIdx d2 c := by
  rw [colIdx, colIdx, h]

/-- C4: in chronological mode (`python_chrono_split`), the filtered
dataset is sorted by timestamp before grouping, so inside every output
dataset any two rows of the same group appear in ascending timestamp
order. -/
theorem C4_chrono_order (data : DataFrame) (ratio : RatioInput) (m : ℤ)
    (fb : String) (cu ci cts : String) (outs : List DataFrame)
    (hwf : ∀ r ∈ data.rows, r.length = data.cols.length)
    (hsi : "split_index" ∉ data.cols)
    (h : python_chrono_split data ratio m fb cu ci cts = .ok outs) :
    ∀ o ∈ outs, List.Pairwise (fun r1 r2 =>
      r1[colIdx data (if fb = "user" then cu else ci)]?
        = r2[colIdx data (if fb = "user" then cu else ci)]? →
      optLeP r1[colIdx data cts]? r2[colIdx data cts]?) o.rows := by
  rw [python_chrono_split] at h
  obtain ⟨pr, hpr, houts⟩ := strat_structure hwf hsi h
  intro o ho
  rw [houts] at ho
  rcases List.mem_map.mp ho with ⟨x, _, hxo⟩
  rw [← hxo]
  show List.Pairwise _ ((List.map (fun g => groupSlice g (canonRatio pr) false 42 x)
    (groupedData data m fb false cu ci cts)).flatten)
  have hBcols := baseData_cols data m fb false cu ci cts
  have hkeyIdx : colIdx (baseData data m fb false cu ci cts)
      (if fb = "user" then cu else ci)
      = colIdx data (if fb = "user" then cu else ci) :=
    colIdx_congr _ hBcols
  have hsorted : List.Pairwise (rowLe (colIdx data cts))
      (baseData data m fb false cu ci cts).rows := by
    show List.Pairwise (rowLe (colIdx data cts))
      (sort_values (filteredData data m fb cu ci) cts).rows
    have htsIdx : colIdx (filteredData data m fb cu ci) cts = colIdx data cts :=
      colIdx_congr _ (filteredData_cols data m fb cu ci)
    show List.Pairwise (rowLe (colIdx data cts))
      ((filteredData data m fb cu ci).rows.insertionSort
        (rowLe (colIdx (filteredData data m fb cu ci) cts)))
    rw [htsIdx]
    exact List.sorted_insertionSort (rowLe (colIdx data cts)) _
  rw [groupedData_eq, groupby, List.map_map]
  rw [List.pairwise_flatten]
  constructor
  · intro blk hblk
    rcases List.mem_map.mp hblk with ⟨k, _, hkb⟩
    rw [← hkb]
    show List.Pairwise _ (groupSlice ⟨(baseData data m fb false cu ci cts).cols,
      (baseData data m fb false cu ci cts).rows.filter _⟩ (canonRatio pr) false 42 x)
    apply List.Pairwise.imp (fun hle => fun _ => hle)
    exact groupSlice_pairwise (hsorted.filter _) (canonRatio pr) 42 x
  · rw [List.pairwise_map]
    have hnd := groupby_keys_nodup (baseData data m fb false cu ci cts)
      (if fb = "user" then cu else ci)
    apply List.Pairwise.imp ?step hnd
    case step =>
      intro k1 k2 hne12 a ha b hb hkeyeq
      exfalso
      have ha' : a[colIdx data (if fb = "user" then cu else ci)]? = k1 := by
        have := groupSlice_sub _ (canonRatio pr) false 42 x a ha
        have h2 := List.of_mem_filter this
        rw [hkeyIdx] at h2
        simpa using h2
      have hb' : b[colIdx data (if fb = "user" then cu else ci)]? = k2 := by
        have := groupSlice_sub _ (canonRatio pr) false 42 x b hb
        have h2 := List.of_mem_filter this
        rw [hkeyIdx] at h2
        simpa using h2
      exact hne12 (by rw [← ha', ← hb', hkeyeq])

/-- Chronological sample dataset (timestamps out of order) used by the
chronological witnesses. -/
def chronoDF : DataFrame :=
  ⟨["userID", "colID", "timestamp"],
    [[1, 10, 5], [1, 11, 3], [2, 20, 9], [1, 12, 1], [2, 21, 2]]⟩

theorem C4_chrono_order_witness :
    List.Pairwise (fun r1 r2 =>
        r1[colIdx chronoDF (if "user" = "user" then "userID" else "colID")]?
          = r2[colIdx chronoDF (if "user" = "user" then "userID" else "colID")]? →
        optLeP r1[colIdx chronoDF "timestamp"]? r2[colIdx chronoDF "timestamp"]?)
      ([[1, 12, 1], [1, 11, 3], [2, 21, 2], [2, 20, 9]] : List Row) :=
  C4_chrono_order chronoDF (.single (mkRat 3 4)) 1 "user" "userID" "colID"
    "timestamp"
    [⟨["userID", "colID", "timestamp"],
        [[1, 12, 1], [1, 11, 3], [2, 21, 2], [2, 20, 9]]⟩,
      ⟨["userID", "colID", "timestamp"], [[1, 10, 5]]⟩]
    (by decide) (by decide) (by decide)
    ⟨["userID", "colID", "timestamp"],
      [[1, 12, 1], [1, 11, 3], [2, 21, 2], [2, 20, 9]]⟩
    (List.mem_cons_self _ _)

/-- The rows of one group, as the stratifier sees them just before
per-group splitting: the filtered (and, chronologically, sorted) dataset
restricted to the rows whose stratification key equals `v`. -/
def groupContents (data : DataFrame) (m : ℤ) (fb : String) (ir : Bool)
    (cu ci cts : String) (v : Option ℤ) : List Row :=
  (baseData data m fb ir cu ci cts).rows.filter
    (fun r => r[colIdx data (if fb = "user" then cu else ci)]? == v)

/-- The `x`-th proportional segment of a given row sequence: the function
of (group contents, ratios, seed) that determines one group's
contribution to output set `x`. -/
def contentSlice (rows : List Row) (rs : List ℚ) (sh : Bool) (seed x : ℕ) : List Row :=
  (slicesFrom (if sh then rows.rotate seed else rows) 0
    (boundaries rs (if sh then rows.rotate seed else rows).length)).getD x []

theorem slicesFrom_nil_rows : ∀ (prev : ℕ) (bs : List ℕ),
    ∀ s ∈ slicesFrom ([] : List Row) prev bs, s = [] := by
  intro prev bs
  induction bs generalizing prev with
  | nil => intro s hs; simp [slicesFrom] at hs
  | cons b bs ih =>
    intro s hs
    rw [slicesFrom, List.mem_cons] at hs
    rcases hs with hs | hs
    · simp at hs
      exact hs
    · exact ih b s hs

theorem contentSlice_nil (rs : List ℚ) (sh : Bool) (seed x : ℕ) :
    contentSlice [] rs sh seed x = [] := by
  rw [contentSlice]
  have hrows : (if sh then List.rotate ([] : List Row) seed else []) = [] := by
    split
    · exact List.rotate_nil seed
    · rfl
  rw [hrows]
  by_cases hx : x < (slicesFrom ([] : List Row) 0
      (boundaries rs ([] : List Row).length)).length
  · rw [List.getD_eq_getElem?_getD, List.getElem?_eq_getElem hx]
    exact slicesFrom_nil_rows 0 _ _ (List.getElem_mem hx)
  · rw [List.getD_eq_getElem?_getD, List.getElem?_eq_none (Nat.le_of_not_lt hx)]
    rfl

theorem flatten_if_single {α β : Type} [DecidableEq β] (blk : β → List α) :
    ∀ (keys : List β), keys.Nodup → ∀ v,
    ((keys.map (fun k => if k = v then blk k else [])).flatten)
      = if v ∈ keys then blk v else [] := by
  intro keys
  induction keys with
  | nil => intro _ v; simp
  | cons k ks ih =>
    intro hnd v
    rw [List.map_cons, List.flatten_cons, ih (List.nodup_cons.mp hnd).2 v]
    by_cases hkv : k = v
    · subst hkv
      rw [if_pos rfl, if_pos (List.mem_cons_self k ks),
        if_neg (List.nodup_cons.mp hnd).1, List.append_nil]
    · rw [if_neg hkv]
      by_cases hv : v ∈ ks
      · rw [if_pos hv, if_pos (by simp [hv])]
        simp
      · rw [if_neg hv, if_neg ?h]
        case h =>
          intro hc
          rcases List.mem_cons.mp hc with hc | hc
          · exact hkv hc.symm
          · exact hv hc
        simp

theorem groupSlice_eq_contentSlice (g : DataFrame) (rs : List ℚ) (sh : Bool)
    (seed x : ℕ) : groupSlice g rs sh seed x = contentSlice g.rows rs sh seed x := rfl

/-- The key-`v` rows of output set `x` are exactly the `x`-th proportional
segment of the key-`v` group contents: a function of (group contents,
ratios, seed) only, independent of the other groups. -/
theorem strat_out_filter {data : DataFrame} {ratio : RatioInput} {m : ℤ}
    {fb : String} {ir : Bool} {seed : ℕ} {cu ci cts : String}
    {outs : List DataFrame}
    (hwf : ∀ r ∈ data.rows, r.length = data.cols.length)
    (hsi : "split_index" ∉ data.cols)
    (h : _do_stratification data ratio m fb ir seed cu ci cts = .ok outs) :
    ∃ pr, process_split_ratio ratio = .ok pr ∧
    ∀ x v, (outs.getD x ⟨[], []⟩).rows.filter
        (fun r => r[colIdx data (if fb = "user" then cu else ci)]? == v)
      = if x < (canonRatio pr).length then
          contentSlice (groupContents data m fb ir cu ci cts v)
            (canonRatio pr) ir seed x
        else [] := by
  obtain ⟨pr, hpr, houts⟩ := strat_structure hwf hsi h
  refine ⟨pr, hpr, ?_⟩
  intro x v
  have hkeyIdx : colIdx (baseData data m fb ir cu ci cts)
      (if fb = "user" then cu else ci)
      = colIdx data (if fb = "user" then cu else ci) :=
    colIdx_congr _ (baseData_cols data m fb ir cu ci cts)
  by_cases hx : x < (canonRatio pr).length
  · rw [if_pos hx, houts]
    have hget : ((List.range (canonRatio pr).length).map (fun x =>
        (⟨data.cols, ((groupedData data m fb ir cu ci cts).map
          (fun g => groupSlice g (canonRatio pr) ir seed x)).flatten⟩ : DataFrame))).getD
          x ⟨[], []⟩
        = ⟨data.cols, ((groupedData data m fb ir cu ci cts).map
          (fun g => groupSlice g (canonRatio pr) ir seed x)).flatten⟩ := by
      rw [List.getD_eq_getElem?_getD, List.getElem?_map, List.getElem?_range hx]
      rfl
    rw [hget]
    show (((groupedData data m fb ir cu ci cts).map
      (fun g => groupSlice g (canonRatio pr) ir seed x)).flatten).filter _ = _
    rw [groupedData_eq, groupby, List.map_map, List.filter_flatten, List.map_map]
    have hpred : (fun r : Row => r[colIdx (baseData data m fb ir cu ci cts)
          (if fb = "user" then cu else ci)]? == v)
        = (fun r : Row => r[colIdx data (if fb = "user" then cu else ci)]? == v) := by
      rw [hkeyIdx]
    have heq : List.map ((List.filter
        (fun r => r[colIdx data (if fb = "user" then cu else ci)]? == v))
          ∘ ((fun g => groupSlice g (canonRatio pr) ir seed x)
          ∘ (fun k => (⟨(baseData data m fb ir cu ci cts).cols,
            (baseData data m fb ir cu ci cts).rows.filter
              (fun r => r[colIdx (baseData data m fb ir cu ci cts)
                (if fb = "user" then cu else ci)]? == k)⟩ : DataFrame))))
          ((((baseData data m fb ir cu ci cts).rows.map
            (fun r => r[colIdx (baseData data m fb ir cu ci cts)
              (if fb = "user" then cu else ci)]?)).dedup).insertionSort optLeP)
        = List.map (fun k => if k = v then
            contentSlice (groupContents data m fb ir cu ci cts v)
              (canonRatio pr) ir seed x else [])
          ((((baseData data m fb ir cu ci cts).rows.map
            (fun r => r[colIdx (baseData data m fb ir cu ci cts)
              (if fb = "user" then cu else ci)]?)).dedup).insertionSort optLeP) := by
      apply List.map_congr_left
      intro k _
      simp only [Function.comp_apply]
      by_cases hkv : k = v
      · subst hkv
        rw [if_pos rfl]
        have hall : (groupSlice (⟨(baseData data m fb ir cu ci cts).cols,
            (baseData data m fb ir cu ci cts).rows.filter
              (fun r => r[colIdx (baseData data m fb ir cu ci cts)
                (if fb = "user" then cu else ci)]? == k)⟩ : DataFrame)
            (canonRatio pr) ir seed x).filter
            (fun r => r[colIdx data (if fb = "user" then cu else ci)]? == k)
            = groupSlice (⟨(baseData data m fb ir cu ci cts).cols,
            (baseData data m fb ir cu ci cts).rows.filter
              (fun r => r[colIdx (baseData data m fb ir cu ci cts)
                (if fb = "user" then cu else ci)]? == k)⟩ : DataFrame)
            (canonRatio pr) ir seed x := by
          rw [List.filter_eq_self]
          intro r hr
          have h2 := List.of_mem_filter (groupSlice_sub _ (canonRatio pr) ir seed x r hr)
          rw [hkeyIdx] at h2
          exact h2
        rw [hall, groupSlice_eq_contentSlice]
        show contentSlice ((baseData data m fb ir cu ci cts).rows.filter _) _ _ _ _ = _
        rw [groupContents, ← hpred]
      · rw [if_neg hkv, List.filter_eq_nil_iff]
        intro r hr
        have h2 := List.of_mem_filter (groupSlice_sub _ (canonRatio pr) ir seed x r hr)
        rw [hkeyIdx] at h2
        have h3 : r[colIdx data (if fb = "user" then cu else ci)]? = k := by
          simpa using h2
        rw [h3]
        simp only [beq_iff_eq]
        exact hkv
    rw [heq, flatten_if_single _ _ (groupby_keys_nodup
      (baseData data m fb ir cu ci cts) (if fb = "user" then cu else ci)) v]
    by_cases hv : v ∈ ((((baseData data m fb ir cu ci cts).rows.map
        (fun r => r[colIdx (baseData data m fb ir cu ci cts)
          (if fb = "user" then cu else ci)]?)).dedup).insertionSort optLeP)
    · rw [if_pos hv]
    · rw [if_neg hv]
      have hnil : groupContents data m fb ir cu ci cts v = [] := by
        rw [groupContents, List.filter_eq_nil_iff]
        intro r hr hc
        apply hv
        rw [(List.perm_insertionSort optLeP _).mem_iff, List.mem_dedup]
        refine List.mem_map.mpr ⟨r, hr, ?_⟩
        rw [hkeyIdx]
        simpa using hc
      rw [hnil, contentSlice_nil]
  · rw [if_neg hx, houts]
    rw [List.getD_eq_getElem?_getD, List.getElem?_eq_none
      (by rw [List.length_map, List.length_range]; omega)]
    rfl

/-- Second sample dataset for group-independence: it shares the key-`1`
group `[[1, 10], [1, 11]]` with `sampleDF` but differs in every other
group. -/
def c5DF : DataFrame := ⟨["userID", "colID"], [[1, 10], [1, 11], [3, 30], [3, 31]]⟩

/-- The split of `c5DF` produced by `_do_stratification` with ratio 3/4,
`min_rating` 1, filtering by user, random mode, seed 0. -/
def c5Outs : List DataFrame :=
  [⟨["userID", "colID"], [[1, 10], [1, 11], [3, 30], [3, 31]]⟩,
   ⟨["userID", "colID"], []⟩]

/-- C5: two invocations with identical arguments produce identical split
assignments in both random modes (the embedded splitters are pure,
deterministic functions of their arguments), and in stratified splitting
the same seed is reused for every group's per-group shuffle, so each
output's key-`v` rows depend only on that group's contents, the ratios and
the seed — not on the other groups or the order they are processed in. -/
theorem C5_group_independence
    {data1 data2 : DataFrame} {ratio : RatioInput} {m : ℤ}
    {fb : String} {ir : Bool} {seed : ℕ} {cu ci cts : String}
    {outs1 outs2 : List DataFrame}
    (hwf1 : ∀ r ∈ data1.rows, r.length = data1.cols.length)
    (hsi1 : "split_index" ∉ data1.cols)
    (hwf2 : ∀ r ∈ data2.rows, r.length = data2.cols.length)
    (hsi2 : "split_index" ∉ data2.cols)
    (h1 : _do_stratification data1 ratio m fb ir seed cu ci cts = .ok outs1)
    (h2 : _do_stratification data2 ratio m fb ir seed cu ci cts = .ok outs2) :
    (_do_stratification data1 ratio m fb ir seed cu ci cts
      = _do_stratification data1 ratio m fb ir seed cu ci cts)
    ∧ (∀ sk r s, python_random_split sk data1 r s
        = python_random_split sk data1 r s)
    ∧ ∀ v, groupContents data1 m fb ir cu ci cts v
          = groupContents data2 m fb ir cu ci cts v →
      ∀ x, (outs1.getD x ⟨[], []⟩).rows.filter
          (fun r => r[colIdx data1 (if fb = "user" then cu else ci)]? == v)
        = (outs2.getD x ⟨[], []⟩).rows.filter
          (fun r => r[colIdx data2 (if fb = "user" then cu else ci)]? == v) := by
  refine ⟨rfl, fun _ _ _ => rfl, ?_⟩
  intro v hsame x
  obtain ⟨pr1, hpr1, hf1⟩ := strat_out_filter hwf1 hsi1 h1
  obtain ⟨pr2, hpr2, hf2⟩ := strat_out_filter hwf2 hsi2 h2
  rw [hpr1] at hpr2
  have hpr : pr1 = pr2 := Except.ok.inj hpr2
  rw [hf1 x v, hf2 x v, hpr, hsame]

/-- Witness for C5: `sampleDF` and `c5DF` share the key-`1` group, so the
key-`1` rows of their first output sets coincide even though the other
groups differ. -/
theorem C5_group_independence_witness :
    (sampleOuts.getD 0 ⟨[], []⟩).rows.filter
        (fun r => r[colIdx sampleDF "userID"]? == some 1)
      = (c5Outs.getD 0 ⟨[], []⟩).rows.filter
        (fun r => r[colIdx c5DF "userID"]? == some 1) :=
  have h1 : _do_stratification sampleDF (.single (mkRat 3 4)) 1 "user" true 0
      "userID" "colID" "timestamp" = .ok sampleOuts := by decide
  have h2 : _do_stratification c5DF (.single (mkRat 3 4)) 1 "user" true 0
      "userID" "colID" "timestamp" = .ok c5Outs := by decide
  (C5_group_independence (by decide) (by decide) (by decide) (by decide)
    h1 h2).2.2 (some 1) (by decide) 0
